import Mathlib

/-!
Verification of the title-resolution engine of the movie chatbot
(`actions/actions.py`).

Strings are modelled as `List Char` over the ASCII fragment: `Char.toLower`
agrees with Python `str.lower` on ASCII, and `pyIsSpace` models the ASCII
part of Python's `\s` class and of `str.strip()` with no arguments.
Python floats produced by `difflib.SequenceMatcher.ratio` are modelled as
exact rationals `ℚ`; in the ranges reachable here (small integer
numerators and denominators) the float comparisons of the source agree
with the rational ones.
-/

set_option maxRecDepth 8000

/-- Abbreviation for the modelled Python string type. -/
abbrev Str := List Char

/-- ASCII fragment of Python's whitespace class `\s` (also used by
`str.strip()` with no arguments). -/
def pyIsSpace (c : Char) : Bool :=
  c = ' ' || c = '\t' || c = '\n' || c = '\r' || c = '\x0b' || c = '\x0c'

/-- Python `s.strip()` restricted to a generic character predicate:
removes the maximal run of matching characters from both ends. -/
def stripBoth (p : Char → Bool) (l : Str) : Str :=
  ((l.dropWhile p).reverse.dropWhile p).reverse

/-- Python `s.strip()` with no arguments (whitespace on both ends). -/
def pyStrip (l : Str) : Str := stripBoth pyIsSpace l

/-- Characters of the literal passed to `.strip` on line 48 of the source:
`" ?!., sync'\""`.  Note that it contains the letters `s`, `y`, `n`, `c`. -/
def titleStripSet (c : Char) : Bool :=
  c = ' ' || c = '?' || c = '!' || c = '.' || c = ',' ||
  c = 's' || c = 'y' || c = 'n' || c = 'c' || c = '\'' || c = '"'

/-- Auxiliary state machine for `re.sub(r"\s+", " ", t)`: each maximal run
of whitespace becomes a single `' '`.  The flag records whether we are
inside a whitespace run that has already emitted its space. -/
def collapseWsAux : Bool → Str → Str
  | _, [] => []
  | true, c :: cs =>
    if pyIsSpace c then collapseWsAux true cs else c :: collapseWsAux false cs
  | false, c :: cs =>
    if pyIsSpace c then ' ' :: collapseWsAux true cs else c :: collapseWsAux false cs

/-- Python `re.sub(r"\s+", " ", t)`. -/
def collapseWs (l : Str) : Str := collapseWsAux false l

/-- One character of the replacement `re.sub(r"[^a-z0-9\s]", " ", t)`:
characters that are not lowercase letters, digits or whitespace become a
single space. -/
def keepOrSpace (c : Char) : Char :=
  if ('a' ≤ c ∧ c ≤ 'z') ∨ ('0' ≤ c ∧ c ≤ '9') ∨ pyIsSpace c then c else ' '

/-- The source's `normalize_title` (lines 51-59): empty input short-circuits
to the empty string, otherwise lower-case, strip, replace every character
outside `[a-z0-9\s]` by a space, collapse whitespace runs, strip again. -/
def normalize_title (title : Str) : Str :=
  if title = [] then []
  else
    pyStrip (collapseWs ((pyStrip (title.map Char.toLower)).map keepOrSpace))

/-- Python `s.replace(pat, "", 1)`: remove the first occurrence of `pat`.
In the source it is only reached under a `startswith` guard, in which case
the first occurrence is the prefix itself. -/
def replaceFirst (pat : Str) : Str → Str
  | [] => if pat.isPrefixOf ([] : Str) then ([] : Str).drop pat.length else []
  | c :: cs =>
    if pat.isPrefixOf (c :: cs) then (c :: cs).drop pat.length
    else c :: replaceFirst pat cs

/-- The fixed lead-in phrase list of `extract_title_from_text`
(lines 40-43), in source order. -/
def phrases : List Str :=
  [("tell me about").toList, ("what is").toList, ("info for").toList,
   ("details for").toList, ("plot of").toList, ("duration of").toList,
   ("story of").toList, ("how long is").toList]

/-- The phrase-stripping loop of `extract_title_from_text` (lines 44-47):
every phrase is tried in order against the current remainder; there is no
break after a removal. -/
def stripPhrases (t : Str) : Str :=
  phrases.foldl (fun cl p => if p.isPrefixOf cl then replaceFirst p cl else cl) t

/-- The scan of `re.findall(r'"([^"]+)"', text)` restricted to its first
match: at each position, a `"` followed by a nonempty run of non-quote
characters followed by a closing `"` is a match; otherwise the scan
advances one character. -/
def findQuoted : Str → Option Str
  | [] => none
  | c :: cs =>
    if c = '"' then
      let content := cs.takeWhile (fun d => d ≠ '"')
      let rest := cs.dropWhile (fun d => d ≠ '"')
      if content ≠ [] ∧ rest ≠ [] then some content else findQuoted cs
    else findQuoted cs

/-- The source's `extract_title_from_text` (lines 30-48). -/
def extract_title_from_text (text : Str) : Str :=
  let t := pyStrip (text.map Char.toLower)
  match findQuoted t with
  | some q => pyStrip q
  | none => stripBoth titleStripSet (stripPhrases t)

/-- A CSV record: insertion-ordered association of header names to values,
where `none` models Python `None`. -/
abbrev Row := List (Str × Option Str)

/-- The source's `get_row_value_case_insensitive` (lines 62-70): the first
key matching case-insensitively wins; a missing key or a `None` value
yields the empty string. -/
def get_row_value_case_insensitive (row : Row) (key : Str) : Str :=
  let keyLower := key.map Char.toLower
  match row.find? (fun kv => kv.1.map Char.toLower = keyLower) with
  | some kv => match kv.2 with
    | none => []
    | some v => v
  | none => []

/-!
Embedding of `difflib.SequenceMatcher(None, a, b).ratio()` (CPython 3.11),
which the source's `similarity` (lines 22-27) calls.  With `isjunk=None`
the junk set `bjunk` is empty, so the two junk-extension loops of
`find_longest_match` can never fire and are omitted; the `autojunk`
heuristic (on by default) is kept: when `len(b) >= 200`, characters
occurring more than `len(b)//100 + 1` times are dropped from `b2j`.
-/

namespace SeqMatcher

/-- Positions (ascending) of a character in `b`: the `b2j` lists built by
`SequenceMatcher.__chain_b` before popular entries are deleted. -/
def positionsAux (c : Char) : Str → Nat → List Nat
  | [], _ => []
  | x :: xs, k => if x = c then k :: positionsAux c xs (k + 1) else positionsAux c xs (k + 1)

/-- Positions of `c` in `b`, counted from 0. -/
def positions (c : Char) (b : Str) : List Nat := positionsAux c b 0

/-- The autojunk popularity test of `__chain_b`: only active when
`len(b) >= 200`; a character is popular when it occurs more than
`len(b) // 100 + 1` times. -/
def popular (b : Str) (c : Char) : Bool :=
  decide (200 ≤ b.length) && decide (b.length / 100 + 1 < b.count c)

/-- The `b2j` mapping as queried by `find_longest_match`
(`b2j.get(a[i], nothing)`): positions of the character in `b`, with
popular characters mapped to the empty list. -/
def b2j (b : Str) (c : Char) : List Nat := if popular b c then [] else positions c b

/-- Result triple of `find_longest_match`. -/
structure Best where
  besti : Nat
  bestj : Nat
  bestsize : Nat
deriving Repr, DecidableEq

/-- The inner `for j in b2j.get(a[i], nothing)` loop of the core dynamic
program of `find_longest_match`: `j < blo` is `continue`, `bhi <= j` is
`break` (the position lists are ascending), and `j2len` maps a `b` index
to the length of the longest chain ending there on the previous row
(`0` when absent, matching `dict.get(j-1, 0)`; `j = 0` reads Python key
`-1`, which is absent). -/
def innerLoop (blo bhi i : Nat) (old : Nat → Nat) :
    List Nat → (Nat → Nat) → Best → ((Nat → Nat) × Best)
  | [], new, best => (new, best)
  | j :: js, new, best =>
    if j < blo then innerLoop blo bhi i old js new best
    else if bhi ≤ j then (new, best)
    else
      let k := (if j = 0 then 0 else old (j - 1)) + 1
      let new' := fun j' => if j' = j then k else new j'
      let best' : Best := if best.bestsize < k then ⟨i + 1 - k, j + 1 - k, k⟩ else best
      innerLoop blo bhi i old js new' best'

/-- The outer `for i in range(alo, ahi)` loop of `find_longest_match`,
threading the previous row `j2len` and the running best triple
(initially `(alo, blo, 0)`). -/
def coreLoop (a b : Str) (alo ahi blo bhi : Nat) : Best :=
  ((List.range' alo (ahi - alo)).foldl
    (fun st i => innerLoop blo bhi i st.1 (b2j b (a.getD i ' ')) (fun _ => 0) st.2)
    ((fun _ => 0), ⟨alo, blo, 0⟩)).2

/-- The non-junk backward extension loop of `find_longest_match`:
`while besti > alo and bestj > blo and a[besti-1] == b[bestj-1]`. -/
def extendBack (a b : Str) (alo blo : Nat) : Nat → Nat → Nat → Best
  | 0, bj, bs => ⟨0, bj, bs⟩
  | bi + 1, bj, bs =>
    if alo < bi + 1 ∧ blo < bj ∧ a.getD bi ' ' = b.getD (bj - 1) ' ' then
      extendBack a b alo blo bi (bj - 1) (bs + 1)
    else ⟨bi + 1, bj, bs⟩

/-- The non-junk forward extension loop of `find_longest_match`:
`while besti+bestsize < ahi and bestj+bestsize < bhi and
a[besti+bestsize] == b[bestj+bestsize]`.  The fuel argument only bounds
the recursion; `ahi + 1` steps always suffice since `bestsize` grows
towards `ahi`. -/
def extendFwdAux (a b : Str) (ahi bhi bi bj : Nat) : Nat → Nat → Nat
  | 0, bs => bs
  | fuel + 1, bs =>
    if bi + bs < ahi ∧ bj + bs < bhi ∧ a.getD (bi + bs) ' ' = b.getD (bj + bs) ' ' then
      extendFwdAux a b ahi bhi bi bj fuel (bs + 1)
    else bs

/-- The source-level `find_longest_match(alo, ahi, blo, bhi)` with
`isjunk=None`: core dynamic program, then backward and forward
extension. -/
def find_longest_match (a b : Str) (alo ahi blo bhi : Nat) : Best :=
  let core := coreLoop a b alo ahi blo bhi
  let back := extendBack a b alo blo core.besti core.bestj core.bestsize
  ⟨back.besti, back.bestj,
   extendFwdAux a b ahi bhi back.besti back.bestj (ahi + 1) back.bestsize⟩

/-- Total size of the matching blocks produced by
`get_matching_blocks`.  The queue there processes each region
independently (find the longest match, then the region to its left and
the region to its right), so the sum of block sizes equals this
recursion; the LIFO order and the adjacent-block merge of the source do
not change the sum.  The fuel argument only bounds the recursion depth:
each recursive call shrinks the region, so `la + lb + 1` always
suffices. -/
def matchedFuel (a b : Str) : Nat → Nat → Nat → Nat → Nat → Nat
  | 0, _, _, _, _ => 0
  | fuel + 1, alo, ahi, blo, bhi =>
    let m := find_longest_match a b alo ahi blo bhi
    if m.bestsize = 0 then 0
    else
      m.bestsize
      + (if alo < m.besti ∧ blo < m.bestj then matchedFuel a b fuel alo m.besti blo m.bestj
         else 0)
      + (if m.besti + m.bestsize < ahi ∧ m.bestj + m.bestsize < bhi then
           matchedFuel a b fuel (m.besti + m.bestsize) ahi (m.bestj + m.bestsize) bhi
         else 0)

/-- The `matches` count of `SequenceMatcher.ratio`: sum of the sizes of
all matching blocks of the whole pair. -/
def matchesTotal (a b : Str) : Nat :=
  matchedFuel a b (a.length + b.length + 1) 0 a.length 0 b.length

end SeqMatcher

/-- The source's `similarity` (lines 22-27):
`SequenceMatcher(None, a, b).ratio()`, i.e. `2.0 * matches / (la + lb)`,
and `1.0` when both strings are empty (`_calculate_ratio`).  The float
result is modelled as an exact rational. -/
def similarity (a b : Str) : ℚ :=
  if a.length + b.length = 0 then 1
  else (2 * SeqMatcher.matchesTotal a b : ℚ) / ((a.length : ℚ) + (b.length : ℚ))

/-!
The similarity computation described by the specification, modelled from
the spec's words: find the longest common contiguous block (ties keep
the first encountered, scanning start positions in row-major order),
recurse on the unmatched left and right remainders, sum the matched
lengths, and score `2 * matched / (len a + len b)`.  It is stated over
index regions so it can be compared with the code's region recursion;
fuel arguments only bound recursion depth and are always sufficient.
-/

namespace Ratcliff

/-- Length of the common run starting at `(i, j)` inside the region
bounded by `(ahi, bhi)`; `ahi - i` steps of fuel always suffice. -/
def runLenAux (a b : Str) (ahi bhi : Nat) : Nat → Nat → Nat → Nat
  | 0, _, _ => 0
  | fuel + 1, i, j =>
    if i < ahi ∧ j < bhi ∧ a.getD i ' ' = b.getD j ' ' then
      runLenAux a b ahi bhi fuel (i + 1) (j + 1) + 1
    else 0

/-- Length of the common run starting at `(i, j)`. -/
def runLen (a b : Str) (ahi bhi i j : Nat) : Nat := runLenAux a b ahi bhi (ahi - i) i j

/-- All cells of a region in row-major scan order. -/
def cells (alo ahi blo bhi : Nat) : List (Nat × Nat) :=
  (List.range' alo (ahi - alo)).flatMap
    (fun i => (List.range' blo (bhi - blo)).map (fun j => (i, j)))

/-- One row of the scan for the longest matching block: try every start
column in order, keeping the first strict maximum of the run length. -/
def rowScan (a b : Str) (ahi blo bhi i : Nat) (best : SeqMatcher.Best) : SeqMatcher.Best :=
  (List.range' blo (bhi - blo)).foldl
    (fun best j =>
      let k := runLen a b ahi bhi i j
      if best.bestsize < k then ⟨i, j, k⟩ else best)
    best

/-- The longest matching block of a region per the specification: scan
all start positions in row-major order and keep the first strict maximum
of the run length. -/
def bestBlock (a b : Str) (alo ahi blo bhi : Nat) : SeqMatcher.Best :=
  (List.range' alo (ahi - alo)).foldl
    (fun best i => rowScan a b ahi blo bhi i best) ⟨alo, blo, 0⟩

/-- Total matched length of the Ratcliff/Obershelp decomposition of a
region: the longest block plus the decompositions of the left and right
remainders. -/
def matchedFuel (a b : Str) : Nat → Nat → Nat → Nat → Nat → Nat
  | 0, _, _, _, _ => 0
  | fuel + 1, alo, ahi, blo, bhi =>
    let m := bestBlock a b alo ahi blo bhi
    if m.bestsize = 0 then 0
    else
      m.bestsize
      + (if alo < m.besti ∧ blo < m.bestj then
          matchedFuel a b fuel alo m.besti blo m.bestj else 0)
      + (if m.besti + m.bestsize < ahi ∧ m.bestj + m.bestsize < bhi then
          matchedFuel a b fuel (m.besti + m.bestsize) ahi (m.bestj + m.bestsize) bhi else 0)

/-- Total matched length of the two whole strings. -/
def matchedTotal (a b : Str) : Nat :=
  matchedFuel a b (a.length + b.length + 1) 0 a.length 0 b.length

/-- Length of the longest chain of equal characters ending at `(i, j)`
inside the region (difflib's `j2len` values).  This is a proof device
relating the code's dynamic program to the specification's run
lengths. -/
def endLen (a b : Str) (alo ahi blo bhi : Nat) : Nat → Nat → Nat
  | 0, j =>
    if alo ≤ 0 ∧ blo ≤ j ∧ 0 < ahi ∧ j < bhi ∧ a.getD 0 ' ' = b.getD j ' ' then 1 else 0
  | i + 1, j =>
    if alo ≤ i + 1 ∧ blo ≤ j ∧ i + 1 < ahi ∧ j < bhi ∧ a.getD (i + 1) ' ' = b.getD j ' ' then
      (if alo ≤ i ∧ blo < j then endLen a b alo ahi blo bhi i (j - 1) else 0) + 1
    else 0

/-- Strict row-major order on cells. -/
def lexLT (u v : Nat × Nat) : Prop := u.1 < v.1 ∨ (u.1 = v.1 ∧ u.2 < v.2)

/-- Cells of the region whose column is an occurrence of the row's `a`
character in `b` — exactly the cells the inner loop of the dynamic
program visits. -/
def matchCells (a b : Str) (alo ahi blo bhi : Nat) : List (Nat × Nat) :=
  (List.range' alo (ahi - alo)).flatMap
    (fun i => ((SeqMatcher.positions (a.getD i ' ') b).filter
        (fun j => decide (blo ≤ j) && decide (j < bhi))).map (fun j => (i, j)))

end Ratcliff

/-- The similarity score described by the spec: `2 * matched / (la + lb)`
as an exact rational, and `1` for two empty strings (where the code's
`_calculate_ratio` also returns `1.0`). -/
def specRatio (a b : Str) : ℚ :=
  if a.length + b.length = 0 then 1
  else (2 * Ratcliff.matchedTotal a b : ℚ) / ((a.length : ℚ) + (b.length : ℚ))

/-!
Embedding of the dataset index, its process-wide cache, and the
resolution logic of `ActionMovieDetailsFromDataset.run`.  The cache and
the data source are passed explicitly; a data source answering `none`
models a dataset that cannot be opened or parsed (a Python exception),
and the `Nat` component of results counts dataset reads.
-/

/-- Python dict lookup on an insertion-ordered association list. -/
def assocLookup {α : Type} (l : List (Str × α)) (k : Str) : Option α :=
  match l.find? (fun kv => kv.1 = k) with
  | some kv => some kv.2
  | none => none

/-- Python dict insertion: overwrite in place when the key exists,
append otherwise. -/
def assocUpd {α : Type} : List (Str × α) → Str → α → List (Str × α)
  | [], k, v => [(k, v)]
  | kv :: rest, k, v => if kv.1 = k then (k, v) :: rest else kv :: assocUpd rest k v

/-- Python set insertion, modelled on a duplicate-free list.  (CPython
set iteration order is unspecified; the claims do not depend on it.) -/
def insertNew (l : List Str) (k : Str) : List Str := if k ∈ l then l else l ++ [k]

/-- The `index` dictionary built by `build_dataset_index` (line 96). -/
structure DatasetIndex where
  rows_by_norm : List (Str × Row)
  titles_set : List Str
deriving Repr, DecidableEq

/-- The CSV scan of `build_dataset_index` (lines 84-94): rows whose
`title` field is empty after stripping are skipped; otherwise the
normalized title is inserted into both components (last write wins on
collisions). -/
def indexRows (rows : List Row) : DatasetIndex :=
  rows.foldl
    (fun idx row =>
      let name := pyStrip (get_row_value_case_insensitive row ("title").toList)
      if name = [] then idx
      else
        let n := normalize_title name
        ⟨assocUpd idx.rows_by_norm n row, insertNew idx.titles_set n⟩)
    ⟨[], []⟩

/-- The module-level `_DATASET_CACHE`, passed explicitly. -/
abbrev Cache := List (String × DatasetIndex)

/-- A dataset source: `none` models an unopenable or unparsable file. -/
abbrev DataSource := String → Option (List Row)

/-- Cache lookup keyed by resolved dataset path. -/
def cacheLookup (c : Cache) (p : String) : Option DatasetIndex :=
  match c.find? (fun kv => kv.1 = p) with
  | some kv => some kv.2
  | none => none

/-- The source's `build_dataset_index` (lines 76-98): return the cached
index when present (no read), otherwise parse the dataset once, publish
the index in the cache and return it.  A failing open/parse propagates
as an error and leaves the cache unchanged. -/
def build_dataset_index (src : DataSource) (cache : Cache) (path : String) :
    Except Unit (DatasetIndex × Cache × Nat) :=
  match cacheLookup cache path with
  | some idx => .ok (idx, cache, 0)
  | none =>
    match src path with
    | none => .error ()
    | some rows =>
      let idx := indexRows rows
      .ok (idx, cache ++ [(path, idx)], 1)

/-- The fuzzy scan of `run` (lines 180-184): fold over the title set
keeping the first strict maximum of the similarity score, starting from
`(None, 0.0)`. -/
def bestCandidate (titles : List Str) (target : Str) : Option Str × ℚ :=
  titles.foldl
    (fun acc t =>
      let score := similarity target t
      if acc.2 < score then (some t, score) else acc)
    (none, 0)

/-- The resolution logic of `run` (lines 176-186): exact lookup of the
normalized hint, then the fuzzy fallback accepting the best candidate
only when its score is strictly above `0.8`. -/
def resolveRow (idx : DatasetIndex) (targetNorm : Str) : Option Row :=
  match assocLookup idx.rows_by_norm targetNorm with
  | some row => some row
  | none =>
    let bc := bestCandidate idx.titles_set targetNorm
    if 4 / 5 < bc.2 then
      match bc.1 with
      | some bm => assocLookup idx.rows_by_norm bm
      | none => none
    else none

/-- Rasa events returned by the action. -/
inductive Event where
  | slotSet (slot : String) (value : Option Str)
deriving Repr, DecidableEq

/-- Messages dispatched by the action, abstracting the response text. -/
inductive Msg where
  | askTitle
  | durationMsg (row : Row)
  | plotMsg (row : Row)
  | generalMsg (row : Row)
  | notFound (raw : Str)
deriving Repr, DecidableEq

/-- Result of one invocation of the action: returned event list,
dispatched messages, cache state after the call, datasets read. -/
structure RunResult where
  events : List Event
  msgs : List Msg
  cache : Cache
  reads : Nat
deriving Repr, DecidableEq

/-- Line 168: take the slot when truthy, otherwise extract from the
(already lowered) utterance text. -/
def rawInputOf (slotVal : Option Str) (userText : Str) : Str :=
  match slotVal with
  | some s => if s = [] then extract_title_from_text userText else s
  | none => extract_title_from_text userText

/-- Python substring containment `w in text`. -/
def strContains : Str → Str → Bool
  | [], w => w.isPrefixOf ([] : Str)
  | c :: cs, w => w.isPrefixOf (c :: cs) || strContains cs w

/-- Python `any(word in user_text for word in ws)`. -/
def containsAnyOf (text : Str) (ws : List Str) : Bool :=
  ws.any (fun w => strContains text w)

/-- The source's `ActionMovieDetailsFromDataset.run` (lines 162-210)
with the dialogue runtime abstracted into the slot value and the raw
utterance.  The empty-normalized-hint path returns no events and never
touches the source or the cache; all paths that reach the index return
exactly one `SlotSet("movie_title", None)` event. -/
def actionRun (src : DataSource) (cache : Cache) (movieTitleSlot : Option Str)
    (userTextRaw : Str) (path : String) : Except Unit RunResult :=
  let user_text := userTextRaw.map Char.toLower
  let raw_input := rawInputOf movieTitleSlot user_text
  let target_norm := normalize_title raw_input
  if target_norm = [] then .ok ⟨[], [Msg.askTitle], cache, 0⟩
  else
    match build_dataset_index src cache path with
    | .error e => .error e
    | .ok (idx, cache', reads) =>
      let msg :=
        match resolveRow idx target_norm with
        | some row =>
          if row = [] then Msg.notFound raw_input
          else if containsAnyOf user_text
              [("long").toList, ("duration").toList, ("time").toList, ("length").toList] then
            Msg.durationMsg row
          else if containsAnyOf user_text
              [("plot").toList, ("story").toList, ("about").toList, ("summary").toList] then
            Msg.plotMsg row
          else Msg.generalMsg row
        | none => Msg.notFound raw_input
      .ok ⟨[Event.slotSet "movie_title" none], [msg], cache', reads⟩

/-- Right-side trim: drop the maximal matching suffix (a proof device
for relating `stripBoth` to its two one-sided halves). -/
def trimRight (p : Char → Bool) (l : Str) : Str := (l.reverse.dropWhile p).reverse

/-- The single-removal extraction behavior described by the claim
(modelled from the claim's words, for refutation): remove only the
first phrase in list order that prefixes the lowered, trimmed
utterance, attempt no further removal, then apply the final trim. -/
def claimSingleStrip (text : Str) : Str :=
  let t := pyStrip (text.map Char.toLower)
  match phrases.find? (fun p => p.isPrefixOf t) with
  | some p => stripBoth titleStripSet (t.drop p.length)
  | none => stripBoth titleStripSet t

/-- Modelled from the claim's words: lower-case; replace every character
that is not a lowercase letter, digit or whitespace with a single space;
collapse whitespace runs to one space; trim leading and trailing
whitespace. -/
def specNormalize (s : Str) : Str :=
  pyStrip (collapseWs ((s.map Char.toLower).map keepOrSpace))

/-- The supremum of the similarity scores of the title set against a
target, floored at the `0.0` the source initializes `best_score` with. -/
def maxSim (titles : List Str) (t : Str) : ℚ :=
  titles.foldl (fun m x => max m (similarity t x)) 0

/-!
Theorems for the claims, with their supporting lemmas.
-/

namespace Ratcliff

/-- One-step unfolding of `matchedFuel` at positive fuel. -/
theorem matchedFuel_succ (a b : Str) (fuel alo ahi blo bhi : Nat) :
    matchedFuel a b (fuel + 1) alo ahi blo bhi
      = (let m := bestBlock a b alo ahi blo bhi
        if m.bestsize = 0 then 0
        else
          m.bestsize
          + (if alo < m.besti ∧ blo < m.bestj then
              matchedFuel a b fuel alo m.besti blo m.bestj else 0)
          + (if m.besti + m.bestsize < ahi ∧ m.bestj + m.bestsize < bhi then
              matchedFuel a b fuel (m.besti + m.bestsize) ahi (m.bestj + m.bestsize) bhi
            else 0)) := rfl

end Ratcliff

theorem cacheLookup_eq_none (c : Cache) (p : String)
    (h : cacheLookup c p = none) : c.find? (fun kv => kv.1 = p) = none := by
  unfold cacheLookup at h
  cases hf : c.find? (fun kv => kv.1 = p) with
  | none => rfl
  | some kv => rw [hf] at h; exact absurd h (by simp)

theorem cacheLookup_append_self (c : Cache) (p : String) (idx : DatasetIndex)
    (h : cacheLookup c p = none) :
    cacheLookup (c ++ [(p, idx)]) p = some idx := by
  unfold cacheLookup
  rw [List.find?_append, cacheLookup_eq_none c p h]
  simp

/-- C8: a `build_dataset_index` call that succeeds publishes an index such
that any subsequent call with the same path returns that very index from
the cache, with no dataset read and the cache unchanged; moreover any
single call parses the dataset at most once. -/
theorem c8_cache_memoized :
    ∀ (src : DataSource) (cache : Cache) (path : String) (idx : DatasetIndex)
      (cache' : Cache) (n : Nat),
      build_dataset_index src cache path = .ok (idx, cache', n) →
      build_dataset_index src cache' path = .ok (idx, cache', 0) ∧ n ≤ 1 := by
  intro src cache path idx cache' n h
  unfold build_dataset_index at h ⊢
  cases h1 : cacheLookup cache path with
  | some i =>
    rw [h1] at h
    obtain ⟨rfl, rfl, rfl⟩ : i = idx ∧ cache = cache' ∧ 0 = n := by
      simpa using h
    rw [h1]
    exact ⟨rfl, by omega⟩
  | none =>
    rw [h1] at h
    cases h2 : src path with
    | none => rw [h2] at h; exact absurd h (by simp)
    | some rows =>
      rw [h2] at h
      obtain ⟨rfl, rfl, rfl⟩ :
          indexRows rows = idx ∧ cache ++ [(path, indexRows rows)] = cache' ∧ 1 = n := by
        simpa using h
      rw [cacheLookup_append_self cache path (indexRows rows) h1]
      exact ⟨rfl, by omega⟩

/-- C8 witness: on a one-row data source with an empty cache, the first
call parses once and the second call is a pure cache hit. -/
theorem c8_cache_memoized_witness :
    build_dataset_index (fun _ => some []) ([] ++ [("p", indexRows [])]) "p"
      = .ok (indexRows [], [] ++ [("p", indexRows [])], 0) :=
  (c8_cache_memoized (fun _ => some []) [] "p" (indexRows [])
    ([] ++ [("p", indexRows [])]) 1 (by rfl)).1

/-- C6: when the raw input (slot or extracted title) normalizes to the
empty string, the action answers with the clarification prompt, returns
no events, reads no dataset and leaves the cache untouched — for every
data source, including an unavailable one. -/
theorem c6_empty_query_short_circuit :
    ∀ (src : DataSource) (cache : Cache) (slotVal : Option Str) (text : Str) (path : String),
      normalize_title (rawInputOf slotVal (text.map Char.toLower)) = [] →
      actionRun src cache slotVal text path = .ok ⟨[], [Msg.askTitle], cache, 0⟩ := by
  intro src cache slotVal text path h
  unfold actionRun
  simp [h]

/-- C6 witness: the empty utterance with no slot value, against a data
source that always fails. -/
theorem c6_empty_query_short_circuit_witness :
    actionRun (fun _ => none) [] none [] "p" = .ok ⟨[], [Msg.askTitle], [], 0⟩ :=
  c6_empty_query_short_circuit (fun _ => none) [] none [] "p" (by rfl)

/-- C10: every run that reaches the index returns exactly the event list
clearing the `movie_title` slot, on both the found and the not-found
path; the empty-normalized-hint path returns no events at all. -/
theorem c10_slot_clearing :
    (∀ (src : DataSource) (cache : Cache) (slotVal : Option Str) (text : Str)
       (path : String) (res : RunResult),
        actionRun src cache slotVal text path = .ok res →
        normalize_title (rawInputOf slotVal (text.map Char.toLower)) ≠ [] →
        res.events = [Event.slotSet "movie_title" none])
    ∧ (∀ (src : DataSource) (cache : Cache) (slotVal : Option Str) (text : Str)
       (path : String) (res : RunResult),
        actionRun src cache slotVal text path = .ok res →
        normalize_title (rawInputOf slotVal (text.map Char.toLower)) = [] →
        res.events = []) := by
  constructor
  · intro src cache slotVal text path res h hne
    unfold actionRun at h
    rw [if_neg hne] at h
    cases h2 : build_dataset_index src cache path with
    | error e => rw [h2] at h; exact absurd h (by simp)
    | ok trip =>
      rw [h2] at h
      obtain ⟨idx, cache', reads⟩ := trip
      simp only [Except.ok.injEq] at h
      rw [← h]
  · intro src cache slotVal text path res h he
    unfold actionRun at h
    rw [if_pos he] at h
    simp only [Except.ok.injEq] at h
    rw [← h]

/-- C10 witness: a dataset-reaching run (slot `"up"`, one-row dataset)
clears the slot, and an empty-hint run returns no events. -/
theorem c10_slot_clearing_witness :
    (actionRun (fun _ => some []) [] (some (("up").toList)) [] "p"
        = .ok ⟨[Event.slotSet "movie_title" none], [Msg.notFound (("up").toList)], [("p", indexRows [])], 1⟩ →
      ([Event.slotSet "movie_title" none] : List Event) = [Event.slotSet "movie_title" none])
    ∧ ([] : List Event) = [] := by
  constructor
  · intro h
    exact c10_slot_clearing.1 (fun _ => some []) [] (some (("up").toList)) [] "p" _ h (by decide)
  · exact c10_slot_clearing.2 (fun _ => none) [] none [] "p" _ (by rfl) (by rfl)

/-- C9: field access matches keys case-insensitively (the first match in
record order wins), returns the empty string when no key matches or the
stored value is the null marker, and two keys equal up to case always
retrieve the same value; the function is total and never fails. -/
theorem c9_get_field :
    (∀ (row : Row) (key : Str),
        row.find? (fun kv => kv.1.map Char.toLower = key.map Char.toLower) = none →
        get_row_value_case_insensitive row key = [])
    ∧ (∀ (row : Row) (key k : Str) (v : Option Str),
        row.find? (fun kv => kv.1.map Char.toLower = key.map Char.toLower) = some (k, v) →
        get_row_value_case_insensitive row key = v.getD [])
    ∧ (∀ (row : Row) (key key' : Str),
        key.map Char.toLower = key'.map Char.toLower →
        get_row_value_case_insensitive row key = get_row_value_case_insensitive row key') := by
  refine ⟨?_, ?_, ?_⟩
  · intro row key h
    simp only [get_row_value_case_insensitive]
    rw [h]
  · intro row key k v h
    simp only [get_row_value_case_insensitive]
    rw [h]
    cases v <;> rfl
  · intro row key key' h
    simp only [get_row_value_case_insensitive]
    rw [h]

/-- C9 witness: a header spelled `"Title"` is retrievable through the
keys `"title"` and `"TITLE"`, with the same result. -/
theorem c9_get_field_witness :
    get_row_value_case_insensitive [((("Title").toList), some (("Inception").toList))] (("title").toList)
      = get_row_value_case_insensitive [((("Title").toList), some (("Inception").toList))] (("TITLE").toList) :=
  c9_get_field.2.2 [((("Title").toList), some (("Inception").toList))]
    (("title").toList) (("TITLE").toList) (by decide)

theorem dropWhile_eq_self_of_head (p : Char → Bool) (l : Str) (c : Char)
    (hc : l.head? = some c) (hp : p c = false) : l.dropWhile p = l := by
  cases l with
  | nil => rfl
  | cons d t =>
    obtain rfl : d = c := by simpa using hc
    rw [List.dropWhile_cons, if_neg (by simp [hp])]

theorem stripBoth_eq_self_of_ends (p : Char → Bool) (l : Str) (c d : Char)
    (hc : l.head? = some c) (hpc : p c = false)
    (hd : l.getLast? = some d) (hpd : p d = false) :
    stripBoth p l = l := by
  unfold stripBoth
  rw [dropWhile_eq_self_of_head p l c hc hpc,
      dropWhile_eq_self_of_head p l.reverse d (by simpa using hd) hpd,
      List.reverse_reverse]

/-- C4 counterexample: the phrase-stripped remainder of the utterance
`"us"` is `"us"` itself, which begins and ends with a letter, yet the
final trim removes the trailing `s` (the strip set `" ?!., sync'\""`
contains the letters `s`, `y`, `n`, `c`), so the claim's "returned
unchanged" fails. -/
theorem c4_letters_stripped_counterexample :
    extract_title_from_text (("us").toList) = ("u").toList
    ∧ stripBoth titleStripSet (("us").toList) = ("u").toList
    ∧ ("u").toList ≠ ("us").toList :=
  ⟨by rfl, by rfl, by decide⟩

/-- C4 amended: the final step of extractTitle trims surrounding
whitespace and exactly the characters of the literal `" ?!., sync'\""`
(space, `?`, `!`, `.`, `,`, apostrophe, double quote, and the letters
`s`, `y`, `n`, `c`); a remainder that begins and ends with a character
outside that set is returned unchanged by this step. -/
theorem c4_final_trim_amended :
    (∀ (l : Str) (c d : Char),
        l.head? = some c → titleStripSet c = false →
        l.getLast? = some d → titleStripSet d = false →
        stripBoth titleStripSet l = l)
    ∧ extract_title_from_text (("us").toList) = ("u").toList :=
  ⟨fun l c d hc hpc hd hpd => stripBoth_eq_self_of_ends titleStripSet l c d hc hpc hd hpd,
   by rfl⟩

/-- C4 witness: a remainder whose first and last characters are outside
the strip set passes the final trim unchanged. -/
theorem c4_final_trim_amended_witness :
    stripBoth titleStripSet (("the plot of up").toList) = ("the plot of up").toList :=
  c4_final_trim_amended.1 (("the plot of up").toList) 't' 'p'
    (by rfl) (by decide) (by rfl) (by decide)

theorem findQuoted_first (u v w : Str) (hu : ∀ c ∈ u, c ≠ '"')
    (hv : ∀ c ∈ v, c ≠ '"') (hne : v ≠ []) :
    findQuoted (u ++ '"' :: (v ++ '"' :: w)) = some v := by
  induction u with
  | nil =>
    simp only [List.nil_append, findQuoted, if_pos rfl]
    rw [List.takeWhile_append_of_pos (by intro a ha; simpa using hv a ha),
        List.dropWhile_append_of_pos (by intro a ha; simpa using hv a ha)]
    simp [hne]
  | cons c u ih =>
    have hc : c ≠ '"' := hu c (by simp)
    simpa only [List.cons_append, findQuoted, if_neg hc] using
      ih (fun x hx => hu x (by simp [hx]))

/-- C7: when the lowered, trimmed utterance contains a double-quoted
substring, extractTitle returns the content of the first such substring
trimmed of surrounding whitespace, ignoring everything else. -/
theorem c7_quoted_precedence :
    ∀ (text u v w : Str),
      pyStrip (text.map Char.toLower) = u ++ '"' :: (v ++ '"' :: w) →
      (∀ c ∈ u, c ≠ '"') → (∀ c ∈ v, c ≠ '"') → v ≠ [] →
      extract_title_from_text text = pyStrip v := by
  intro text u v w hdec hu hv hne
  simp only [extract_title_from_text]
  rw [hdec, findQuoted_first u v w hu hv hne]

/-- C7 witness: the utterance `tell me about "Die Hard"` extracts
`die hard`, not a phrase-stripped remainder. -/
theorem c7_quoted_precedence_witness :
    extract_title_from_text (("tell me about \"Die Hard\"").toList)
      = pyStrip (("die hard").toList) :=
  c7_quoted_precedence (("tell me about \"Die Hard\"").toList)
    (("tell me about ").toList) (("die hard").toList) []
    (by rfl) (by decide) (by decide) (by decide)

/-- C3 counterexample: on `"what isplot of x"` the source's loop first
removes `"what is"`, leaving `"plot of x"`, and then also removes the
later-listed `"plot of"`, producing `"x"`; single removal as claimed
would produce `"plot of x"`. -/
theorem c3_single_removal_counterexample :
    extract_title_from_text (("what isplot of x").toList) = ("x").toList
    ∧ claimSingleStrip (("what isplot of x").toList) = ("plot of x").toList
    ∧ ("x").toList ≠ ("plot of x").toList :=
  ⟨by rfl, by rfl, by decide⟩

theorem replaceFirst_of_isPrefixOf (pat l : Str) (h : pat.isPrefixOf l = true) :
    replaceFirst pat l = l.drop pat.length := by
  cases l with
  | nil => simp only [replaceFirst, if_pos h]
  | cons c cs => simp only [replaceFirst, if_pos h]

theorem foldl_strip_skip (ps : List Str) (t : Str)
    (h : ∀ q ∈ ps, q.isPrefixOf t = false) :
    ps.foldl (fun cl p => if p.isPrefixOf cl then replaceFirst p cl else cl) t = t := by
  induction ps with
  | nil => rfl
  | cons q ps ih =>
    rw [List.foldl_cons, if_neg (by simp [h q (by simp)])]
    exact ih (fun x hx => h x (by simp [hx]))

theorem isPrefixOf_false_of_space (q r : Str)
    (hq : q ≠ [] ∧ pyIsSpace (q.headD 'a') = false)
    (hr : r = [] ∨ pyIsSpace (r.headD 'a') = true) :
    q.isPrefixOf r = false := by
  obtain ⟨hne, hhead⟩ := hq
  cases q with
  | nil => exact absurd rfl hne
  | cons qc qs =>
    cases hr with
    | inl h => rw [h]; rfl
    | inr h =>
      cases r with
      | nil => rfl
      | cons rc rs =>
        simp only [List.headD_cons] at h hhead
        show (qc == rc && qs.isPrefixOf rs) = false
        have hne2 : qc ≠ rc := by
          intro he
          rw [he, h] at hhead
          exact Bool.noConfusion hhead
        simp [hne2]

theorem phrases_head_not_space :
    ∀ q ∈ phrases, q ≠ [] ∧ pyIsSpace (q.headD 'a') = false := by decide

theorem foldl_strip_space_noop (ps : List Str) (r : Str)
    (hps : ∀ q ∈ ps, q ≠ [] ∧ pyIsSpace (q.headD 'a') = false)
    (hr : r = [] ∨ pyIsSpace (r.headD 'a') = true) :
    ps.foldl (fun cl p => if p.isPrefixOf cl then replaceFirst p cl else cl) r = r :=
  foldl_strip_skip ps r (fun q hq => isPrefixOf_false_of_space q r (hps q hq) hr)

/-- C3 amended: the loop tries every phrase in list order against the
evolving remainder, so a later-listed phrase can also be removed; but
when the remainder left by the first matching phrase is empty or starts
with whitespace (as in every utterance where the phrase is followed by a
space), no later phrase can match and exactly one phrase is removed;
the claim's example `"what is the plot of Up"` still yields
`"the plot of up"`. -/
theorem c3_phrase_stripping_amended :
    (∀ (text p : Str) (pre post : List Str),
        phrases = pre ++ p :: post →
        findQuoted (pyStrip (text.map Char.toLower)) = none →
        (∀ q ∈ pre, q.isPrefixOf (pyStrip (text.map Char.toLower)) = false) →
        p.isPrefixOf (pyStrip (text.map Char.toLower)) = true →
        ((pyStrip (text.map Char.toLower)).drop p.length = []
          ∨ pyIsSpace (((pyStrip (text.map Char.toLower)).drop p.length).headD 'a') = true) →
        extract_title_from_text text
          = stripBoth titleStripSet ((pyStrip (text.map Char.toLower)).drop p.length))
    ∧ extract_title_from_text (("what is the plot of Up").toList)
        = ("the plot of up").toList := by
  constructor
  · intro text p pre post hsplit hq hpre hp hr
    have hmain : stripPhrases (pyStrip (text.map Char.toLower))
        = (pyStrip (text.map Char.toLower)).drop p.length := by
      unfold stripPhrases
      rw [hsplit, List.foldl_append, foldl_strip_skip pre _ hpre, List.foldl_cons,
          if_pos hp, replaceFirst_of_isPrefixOf p _ hp]
      exact foldl_strip_space_noop post _
        (fun q hqq => phrases_head_not_space q (by rw [hsplit]; simp [hqq])) hr
    simp only [extract_title_from_text]
    rw [hq, hmain]
  · rfl

/-- C3 witness: the amended single-removal case applied to the claim's
own example utterance. -/
theorem c3_phrase_stripping_amended_witness :
    extract_title_from_text (("what is the plot of Up").toList)
      = stripBoth titleStripSet
          ((pyStrip ((("what is the plot of Up").toList).map Char.toLower)).drop
            (("what is").toList).length) :=
  c3_phrase_stripping_amended.1 (("what is the plot of Up").toList) (("what is").toList)
    [("tell me about").toList]
    [("info for").toList, ("details for").toList, ("plot of").toList,
     ("duration of").toList, ("story of").toList, ("how long is").toList]
    (by rfl) (by rfl) (by decide) (by rfl) (by decide)

theorem stripBoth_eq_trimRight (p : Char → Bool) (l : Str) :
    stripBoth p l = trimRight p (l.dropWhile p) := rfl

theorem trimRight_decomp (p : Char → Bool) (l : Str) :
    ∃ w, l = trimRight p l ++ w ∧ ∀ c ∈ w, p c = true := by
  refine ⟨(l.reverse.takeWhile p).reverse, ?_, ?_⟩
  · have h2 := congrArg List.reverse (List.takeWhile_append_dropWhile p l.reverse)
    rw [List.reverse_append, List.reverse_reverse] at h2
    exact h2.symm
  · intro c hc
    rw [List.mem_reverse] at hc
    exact List.mem_takeWhile_imp hc

theorem stripBoth_decomp (p : Char → Bool) (l : Str) :
    ∃ w₁ w₂, l = w₁ ++ stripBoth p l ++ w₂
      ∧ (∀ c ∈ w₁, p c = true) ∧ (∀ c ∈ w₂, p c = true) := by
  obtain ⟨w₂, hw₂, hmem₂⟩ := trimRight_decomp p (l.dropWhile p)
  refine ⟨l.takeWhile p, w₂, ?_, fun c hc => List.mem_takeWhile_imp hc, hmem₂⟩
  rw [stripBoth_eq_trimRight, List.append_assoc, ← hw₂, List.takeWhile_append_dropWhile]

theorem trimRight_cons (p : Char → Bool) (c : Char) (x : Str) :
    trimRight p (c :: x)
      = if trimRight p x = [] then (if p c then [] else [c]) else c :: trimRight p x := by
  unfold trimRight
  rw [List.reverse_cons, List.dropWhile_append]
  by_cases hx : x.reverse.dropWhile p = []
  · rw [if_pos (by rw [hx]; rfl), hx]
    cases hpc : p c
    · simp [List.dropWhile_cons, hpc]
    · simp [List.dropWhile_cons, hpc]
  · have hne : (x.reverse.dropWhile p).isEmpty = false := by
      cases h : x.reverse.dropWhile p
      · exact absurd h hx
      · rfl
    have hx' : ¬((x.reverse.dropWhile p).reverse = []) := by simpa using hx
    rw [hne, if_neg hx']
    simp [List.reverse_append]

theorem keepOrSpace_ws (c : Char) (h : pyIsSpace c = true) : keepOrSpace c = c := by
  unfold keepOrSpace
  rw [if_pos (Or.inr (Or.inr h))]

theorem map_fix_of_all (f : Char → Char) (l : Str) (h : ∀ c ∈ l, f c = c) :
    l.map f = l := by
  induction l with
  | nil => rfl
  | cons c t ih =>
    rw [List.map_cons, h c (by simp), ih (fun x hx => h x (by simp [hx]))]

theorem collapseWsAux_cons_ws_true (c : Char) (cs : Str) (h : pyIsSpace c = true) :
    collapseWsAux true (c :: cs) = collapseWsAux true cs := by
  simp [collapseWsAux, h]

theorem collapseWsAux_cons_ws_false (c : Char) (cs : Str) (h : pyIsSpace c = true) :
    collapseWsAux false (c :: cs) = ' ' :: collapseWsAux true cs := by
  simp [collapseWsAux, h]

theorem collapseWsAux_cons_nonws (flag : Bool) (c : Char) (cs : Str)
    (h : pyIsSpace c = false) :
    collapseWsAux flag (c :: cs) = c :: collapseWsAux false cs := by
  cases flag <;> simp [collapseWsAux, h]

theorem collapseWsAux_skip (w v : Str) (hw : ∀ c ∈ w, pyIsSpace c = true) :
    collapseWsAux true (w ++ v) = collapseWsAux true v := by
  induction w with
  | nil => rfl
  | cons c t ih =>
    rw [List.cons_append, collapseWsAux_cons_ws_true c _ (hw c (by simp))]
    exact ih (fun x hx => hw x (by simp [hx]))

theorem collapseWsAux_true_allws (w : Str) (hw : ∀ c ∈ w, pyIsSpace c = true) :
    collapseWsAux true w = [] := by
  have h := collapseWsAux_skip w [] hw
  rwa [List.append_nil] at h

theorem collapseWsAux_false_allws (w : Str) (hw : ∀ c ∈ w, pyIsSpace c = true) :
    collapseWsAux false w = [] ∨ collapseWsAux false w = [' '] := by
  cases w with
  | nil => exact Or.inl rfl
  | cons c t =>
    right
    rw [collapseWsAux_cons_ws_false c _ (hw c (by simp)),
        collapseWsAux_true_allws t (fun x hx => hw x (by simp [hx]))]

theorem pyStrip_cons_ws (c : Char) (x : Str) (h : pyIsSpace c = true) :
    pyStrip (c :: x) = pyStrip x := by
  unfold pyStrip stripBoth
  rw [List.dropWhile_cons, if_pos (by simp [h])]

theorem pyStrip_cons_nonws (c : Char) (x : Str) (h : pyIsSpace c = false) :
    pyStrip (c :: x) = trimRight pyIsSpace (c :: x) := by
  rw [pyStrip, stripBoth_eq_trimRight, List.dropWhile_cons, if_neg (by simp [h])]

theorem collapse_trimRight_ws_suffix (v w : Str) (hw : ∀ c ∈ w, pyIsSpace c = true) :
    ∀ flag, trimRight pyIsSpace (collapseWsAux flag (v ++ w))
      = trimRight pyIsSpace (collapseWsAux flag v) := by
  induction v with
  | nil =>
    intro flag
    cases flag
    · rcases collapseWsAux_false_allws w hw with h | h <;> rw [List.nil_append, h] <;> rfl
    · rw [List.nil_append, collapseWsAux_true_allws w hw]
      rfl
  | cons c v ih =>
    intro flag
    rw [List.cons_append]
    by_cases hc : pyIsSpace c = true
    · cases flag
      · rw [collapseWsAux_cons_ws_false c _ hc, collapseWsAux_cons_ws_false c _ hc,
            trimRight_cons, trimRight_cons, ih true]
      · rw [collapseWsAux_cons_ws_true c _ hc, collapseWsAux_cons_ws_true c _ hc]
        exact ih true
    · have hc' : pyIsSpace c = false := by simpa using hc
      rw [collapseWsAux_cons_nonws flag c _ hc', collapseWsAux_cons_nonws flag c _ hc',
          trimRight_cons, trimRight_cons, ih false]

theorem collapse_pyStrip_ws_suffix (v w : Str) (hw : ∀ c ∈ w, pyIsSpace c = true) :
    ∀ flag, pyStrip (collapseWsAux flag (v ++ w)) = pyStrip (collapseWsAux flag v) := by
  induction v with
  | nil =>
    intro flag
    cases flag
    · rcases collapseWsAux_false_allws w hw with h | h <;> rw [List.nil_append, h] <;> rfl
    · rw [List.nil_append, collapseWsAux_true_allws w hw]
      rfl
  | cons c v ih =>
    intro flag
    rw [List.cons_append]
    by_cases hc : pyIsSpace c = true
    · cases flag
      · rw [collapseWsAux_cons_ws_false c _ hc, collapseWsAux_cons_ws_false c _ hc,
            pyStrip_cons_ws ' ' _ (by rfl), pyStrip_cons_ws ' ' _ (by rfl)]
        exact ih true
      · rw [collapseWsAux_cons_ws_true c _ hc, collapseWsAux_cons_ws_true c _ hc]
        exact ih true
    · have hc' : pyIsSpace c = false := by simpa using hc
      rw [collapseWsAux_cons_nonws flag c _ hc', collapseWsAux_cons_nonws flag c _ hc',
          pyStrip_cons_nonws c _ hc', pyStrip_cons_nonws c _ hc',
          trimRight_cons, trimRight_cons, collapse_trimRight_ws_suffix v w hw false]

theorem collapse_pyStrip_ws_prefix (w v : Str) (hw : ∀ c ∈ w, pyIsSpace c = true) :
    pyStrip (collapseWs (w ++ v)) = pyStrip (collapseWs v) := by
  cases w with
  | nil => rfl
  | cons c t =>
    unfold collapseWs
    rw [List.cons_append, collapseWsAux_cons_ws_false c _ (hw c (by simp)),
        collapseWsAux_skip t v (fun x hx => hw x (by simp [hx])),
        pyStrip_cons_ws ' ' _ (by rfl)]
    cases v with
    | nil => rfl
    | cons d v' =>
      by_cases hd : pyIsSpace d = true
      · rw [collapseWsAux_cons_ws_true d _ hd, collapseWsAux_cons_ws_false d _ hd,
            pyStrip_cons_ws ' ' _ (by rfl)]
      · have hd' : pyIsSpace d = false := by simpa using hd
        rw [collapseWsAux_cons_nonws true d _ hd', collapseWsAux_cons_nonws false d _ hd']

theorem pyStrip_collapse_strip (u : Str) :
    pyStrip (collapseWs ((pyStrip u).map keepOrSpace))
      = pyStrip (collapseWs (u.map keepOrSpace)) := by
  obtain ⟨w₁, w₂, hdecomp, h₁, h₂⟩ := stripBoth_decomp pyIsSpace u
  conv_rhs => rw [hdecomp]
  rw [List.map_append, List.map_append,
      map_fix_of_all keepOrSpace w₁ (fun c hc => keepOrSpace_ws c (h₁ c hc)),
      map_fix_of_all keepOrSpace w₂ (fun c hc => keepOrSpace_ws c (h₂ c hc)),
      List.append_assoc, collapse_pyStrip_ws_prefix w₁ _ h₁]
  show pyStrip (collapseWsAux false _) = pyStrip (collapseWsAux false _)
  rw [collapse_pyStrip_ws_suffix ((stripBoth pyIsSpace u).map keepOrSpace) w₂ h₂ false]
  rfl

/-- C5: `normalize_title` computes exactly the normalization chain the
claim describes (the source's extra initial strip is absorbed by the
final collapse and trim), and empty input yields empty output. -/
theorem c5_normalize_matches_spec :
    (∀ s : Str, normalize_title s = specNormalize s) ∧ normalize_title [] = [] := by
  constructor
  · intro s
    by_cases hs : s = []
    · subst hs; rfl
    · unfold normalize_title specNormalize
      rw [if_neg hs]
      exact pyStrip_collapse_strip (s.map Char.toLower)
  · rfl

theorem bestCandidate_score (t : Str) (titles : List Str) :
    ∀ init : Option Str × ℚ,
      (titles.foldl
        (fun acc x =>
          let score := similarity t x
          if acc.2 < score then (some x, score) else acc) init).2
        = titles.foldl (fun m x => max m (similarity t x)) init.2 := by
  induction titles with
  | nil => intro init; rfl
  | cons x ts ih =>
    intro init
    rw [List.foldl_cons, List.foldl_cons]
    dsimp only
    by_cases h : init.2 < similarity t x
    · rw [if_pos h, max_eq_right (le_of_lt h)]
      exact ih (some x, similarity t x)
    · rw [if_neg h, max_eq_left (not_lt.mp h)]
      exact ih init

theorem bestCandidate_attains (t : Str) (titles : List Str) :
    ∀ init : Option Str × ℚ,
      titles.foldl
        (fun acc x =>
          let score := similarity t x
          if acc.2 < score then (some x, score) else acc) init = init
      ∨ ∃ bm ∈ titles,
          (titles.foldl
            (fun acc x =>
              let score := similarity t x
              if acc.2 < score then (some x, score) else acc) init)
            = (some bm, similarity t bm) := by
  induction titles with
  | nil => intro init; exact Or.inl rfl
  | cons x ts ih =>
    intro init
    rw [List.foldl_cons]
    dsimp only
    by_cases h : init.2 < similarity t x
    · rw [if_pos h]
      rcases ih (some x, similarity t x) with heq | ⟨bm, hbm, heq⟩
      · exact Or.inr ⟨x, by simp, heq⟩
      · exact Or.inr ⟨bm, by simp [hbm], heq⟩
    · rw [if_neg h]
      rcases ih init with heq | ⟨bm, hbm, heq⟩
      · exact Or.inl heq
      · exact Or.inr ⟨bm, by simp [hbm], heq⟩

theorem assocLookup_nil {α : Type} (k : Str) : assocLookup ([] : List (Str × α)) k = none := rfl

theorem assocUpd_lookup_self {α : Type} (l : List (Str × α)) (k : Str) (v : α) :
    assocLookup (assocUpd l k v) k = some v := by
  induction l with
  | nil => simp [assocUpd, assocLookup, List.find?_cons]
  | cons kv rest ih =>
    by_cases h : kv.1 = k
    · simp [assocUpd, h, assocLookup, List.find?_cons]
    · simp only [assocUpd, if_neg h]
      unfold assocLookup
      rw [List.find?_cons_of_neg _ (by simpa using h)]
      exact ih

theorem assocUpd_lookup_other {α : Type} (l : List (Str × α)) (k k' : Str) (v : α)
    (h : k' ≠ k) : assocLookup (assocUpd l k v) k' = assocLookup l k' := by
  induction l with
  | nil =>
    unfold assocUpd assocLookup
    rw [List.find?_cons_of_neg _ (by simpa using fun he => h he.symm)]
  | cons kv rest ih =>
    by_cases hk : kv.1 = k
    · unfold assocUpd
      rw [if_pos hk]
      simp only [assocLookup, List.find?_cons]
      rw [hk, decide_eq_false (fun he : k = k' => h he.symm)]
    · unfold assocUpd assocLookup
      rw [if_neg hk, List.find?_cons, List.find?_cons]
      cases hd : (decide (kv.1 = k') : Bool)
      · exact ih
      · rfl

theorem indexStep_covered (idx : DatasetIndex) (row : Row)
    (hP : ∀ n ∈ idx.titles_set, ∃ r₀, assocLookup idx.rows_by_norm n = some r₀) :
    ∀ n ∈ (insertNew idx.titles_set
        (normalize_title (pyStrip (get_row_value_case_insensitive row (("title").toList))))),
      ∃ r₀, assocLookup (assocUpd idx.rows_by_norm
        (normalize_title (pyStrip (get_row_value_case_insensitive row (("title").toList)))) row) n
          = some r₀ := by
  intro n hn
  by_cases he : n = normalize_title (pyStrip (get_row_value_case_insensitive row (("title").toList)))
  · subst he
    exact ⟨row, assocUpd_lookup_self _ _ _⟩
  · have hn' : n ∈ idx.titles_set := by
      unfold insertNew at hn
      by_cases hmem : normalize_title (pyStrip (get_row_value_case_insensitive row (("title").toList))) ∈ idx.titles_set
      · rwa [if_pos hmem] at hn
      · rw [if_neg hmem] at hn
        rcases List.mem_append.mp hn with h₀ | h₀
        · exact h₀
        · exact absurd (by simpa using h₀) he
    obtain ⟨r₀, hr₀⟩ := hP n hn'
    exact ⟨r₀, by rw [assocUpd_lookup_other _ _ _ _ he]; exact hr₀⟩

theorem indexRows_covered_aux (rows : List Row) :
    ∀ init : DatasetIndex,
      (∀ n ∈ init.titles_set, ∃ r₀, assocLookup init.rows_by_norm n = some r₀) →
      ∀ n ∈ (rows.foldl
        (fun idx row =>
          let name := pyStrip (get_row_value_case_insensitive row (("title").toList))
          if name = [] then idx
          else
            let n := normalize_title name
            ⟨assocUpd idx.rows_by_norm n row, insertNew idx.titles_set n⟩) init).titles_set,
        ∃ r₀, assocLookup (rows.foldl
          (fun idx row =>
            let name := pyStrip (get_row_value_case_insensitive row (("title").toList))
            if name = [] then idx
            else
              let n := normalize_title name
              ⟨assocUpd idx.rows_by_norm n row, insertNew idx.titles_set n⟩) init).rows_by_norm n
            = some r₀ := by
  induction rows with
  | nil => intro init h; exact h
  | cons row rs ih =>
    intro init h
    rw [List.foldl_cons]
    apply ih
    dsimp only
    by_cases hname : pyStrip (get_row_value_case_insensitive row (("title").toList)) = []
    · rw [if_pos hname]; exact h
    · rw [if_neg hname]
      exact indexStep_covered init row h

theorem indexRows_covered (rows : List Row) :
    ∀ n ∈ (indexRows rows).titles_set,
      ∃ row, assocLookup (indexRows rows).rows_by_norm n = some row := by
  unfold indexRows
  exact indexRows_covered_aux rows ⟨[], []⟩ (fun n hn => absurd hn (by simp))

theorem bestCandidate_spec (titles : List Str) (t : Str) :
    (bestCandidate titles t).2 = maxSim titles t
    ∧ (bestCandidate titles t = (none, 0)
        ∨ ∃ bm ∈ titles, bestCandidate titles t = (some bm, similarity t bm)) :=
  ⟨bestCandidate_score t titles (none, 0), bestCandidate_attains t titles (none, 0)⟩

/-- C1: (1) an exact hit in `rows_by_norm` is returned as-is; (2) on a
miss, for every built index the resolver succeeds exactly when the best
similarity score is strictly above `0.8`, and then returns the record of
a best-scoring candidate; (3) an index with zero indexed rows always
yields not-found. -/
theorem c1_resolve_threshold :
    (∀ (idx : DatasetIndex) (t : Str) (r : Row),
        assocLookup idx.rows_by_norm t = some r → resolveRow idx t = some r)
    ∧ (∀ (rows : List Row) (t : Str),
        assocLookup (indexRows rows).rows_by_norm t = none →
        ((∃ r, resolveRow (indexRows rows) t = some r)
            ↔ 4 / 5 < maxSim (indexRows rows).titles_set t)
          ∧ (∀ r, resolveRow (indexRows rows) t = some r →
              ∃ bm ∈ (indexRows rows).titles_set,
                similarity t bm = maxSim (indexRows rows).titles_set t
                  ∧ assocLookup (indexRows rows).rows_by_norm bm = some r))
    ∧ (∀ (rows : List Row) (t : Str),
        (indexRows rows).rows_by_norm = [] → resolveRow (indexRows rows) t = none) := by
  have hbase : ∀ (idx : DatasetIndex) (t : Str),
      assocLookup idx.rows_by_norm t = none →
      resolveRow idx t
        = if 4 / 5 < (bestCandidate idx.titles_set t).2 then
            (match (bestCandidate idx.titles_set t).1 with
              | some bm => assocLookup idx.rows_by_norm bm
              | none => none)
          else none := by
    intro idx t h
    unfold resolveRow
    rw [h]
  refine ⟨?_, ?_, ?_⟩
  · intro idx t r h
    unfold resolveRow
    rw [h]
  · intro rows t h
    have hsc : (bestCandidate (indexRows rows).titles_set t).2
        = maxSim (indexRows rows).titles_set t :=
      (bestCandidate_spec (indexRows rows).titles_set t).1
    by_cases hq : 4 / 5 < maxSim (indexRows rows).titles_set t
    · have hne : bestCandidate (indexRows rows).titles_set t ≠ (none, 0) := by
        intro he
        rw [he] at hsc
        rw [← hsc] at hq
        norm_num at hq
      rcases (bestCandidate_spec (indexRows rows).titles_set t).2 with heq | ⟨bm, hbm, heq⟩
      · exact absurd heq hne
      · obtain ⟨r₀, hr₀⟩ := indexRows_covered rows bm hbm
        have hres : resolveRow (indexRows rows) t = some r₀ := by
          rw [hbase _ t h, if_pos (hsc ▸ hq)]
          show (match (bestCandidate (indexRows rows).titles_set t).1 with
            | some bm => assocLookup (indexRows rows).rows_by_norm bm
            | none => none) = some r₀
          rw [show (bestCandidate (indexRows rows).titles_set t).1 = some bm by rw [heq]]
          exact hr₀
        constructor
        · exact ⟨fun _ => hq, fun _ => ⟨r₀, hres⟩⟩
        · intro r hr
          rw [hres] at hr
          obtain rfl : r₀ = r := by simpa using hr
          refine ⟨bm, hbm, ?_, hr₀⟩
          rw [← hsc, heq]
    · have hres : resolveRow (indexRows rows) t = none := by
        rw [hbase _ t h, if_neg (hsc ▸ hq)]
      constructor
      · constructor
        · intro ⟨r, hr⟩
          rw [hres] at hr
          exact absurd hr (by simp)
        · intro hcontra
          exact absurd hcontra hq
      · intro r hr
        rw [hres] at hr
        exact absurd hr (by simp)
  · intro rows t h
    unfold resolveRow
    rw [h, assocLookup_nil]
    by_cases hq : 4 / 5 < (bestCandidate (indexRows rows).titles_set t).2
    · rw [if_pos hq]
      cases (bestCandidate (indexRows rows).titles_set t).1 with
      | none => rfl
      | some bm => exact assocLookup_nil bm
    · rw [if_neg hq]

/-- C1 witness: a one-row dataset titled `Inception` resolves the exact
normalized hint `inception` to that row, and the empty dataset resolves
nothing. -/
theorem c1_resolve_threshold_witness :
    resolveRow (indexRows [[((("Title").toList), some (("Inception").toList))]])
        (("inception").toList)
      = some [((("Title").toList), some (("Inception").toList))]
    ∧ resolveRow (indexRows []) (("x").toList) = none :=
  ⟨c1_resolve_threshold.1 (indexRows [[((("Title").toList), some (("Inception").toList))]])
      (("inception").toList) [((("Title").toList), some (("Inception").toList))] (by rfl),
   c1_resolve_threshold.2.2 [] (("x").toList) (by rfl)⟩

/-- C2 counterexample: for `a = "wxx"` and `b` of 200 `x`s followed by
`"zw"`, difflib's autojunk heuristic (active because `len(b) >= 200`)
drops the popular character `x` from `b2j`, so the code matches only the
single `w` (ratio `2/205`), while the Ratcliff/Obershelp decomposition
of the claim matches the block `xx` (ratio `4/205`). -/
theorem c2_similarity_counterexample :
    similarity ['w', 'x', 'x'] (List.replicate 200 'x' ++ [('z' : Char), 'w']) = 2 / 205
    ∧ specRatio ['w', 'x', 'x'] (List.replicate 200 'x' ++ [('z' : Char), 'w']) = 4 / 205
    ∧ similarity ['w', 'x', 'x'] (List.replicate 200 'x' ++ [('z' : Char), 'w'])
        ≠ specRatio ['w', 'x', 'x'] (List.replicate 200 'x' ++ [('z' : Char), 'w']) := by
  have hla : ([('w' : Char), 'x', 'x'] : Str).length = 3 := by rfl
  have hlb : (List.replicate 200 'x' ++ [('z' : Char), 'w']).length = 202 := by
    simp
  have hcode : SeqMatcher.matchesTotal ['w', 'x', 'x']
      (List.replicate 200 'x' ++ [('z' : Char), 'w']) = 1 := by rfl
  have h0 : Ratcliff.rowScan ['w', 'x', 'x'] (List.replicate 200 'x' ++ [('z' : Char), 'w'])
      3 0 202 0 ⟨0, 0, 0⟩ = ⟨0, 201, 1⟩ := by rfl
  have h1 : Ratcliff.rowScan ['w', 'x', 'x'] (List.replicate 200 'x' ++ [('z' : Char), 'w'])
      3 0 202 1 ⟨0, 201, 1⟩ = ⟨1, 0, 2⟩ := by rfl
  have h2 : Ratcliff.rowScan ['w', 'x', 'x'] (List.replicate 200 'x' ++ [('z' : Char), 'w'])
      3 0 202 2 ⟨1, 0, 2⟩ = ⟨1, 0, 2⟩ := by rfl
  have hbb : Ratcliff.bestBlock ['w', 'x', 'x'] (List.replicate 200 'x' ++ [('z' : Char), 'w'])
      0 3 0 202 = ⟨1, 0, 2⟩ := by
    unfold Ratcliff.bestBlock
    rw [show (3 - 0 : Nat) = 3 from rfl, show List.range' 0 3 = [0, 1, 2] from rfl,
        List.foldl_cons, List.foldl_cons, List.foldl_cons, List.foldl_nil]
    rw [h0, h1, h2]
  have hspec : Ratcliff.matchedTotal ['w', 'x', 'x']
      (List.replicate 200 'x' ++ [('z' : Char), 'w']) = 2 := by
    show Ratcliff.matchedFuel ['w', 'x', 'x'] (List.replicate 200 'x' ++ [('z' : Char), 'w'])
      (205 + 1) 0 3 0 202 = 2
    rw [Ratcliff.matchedFuel_succ, hbb]
    norm_num
  refine ⟨?_, ?_, ?_⟩
  · unfold similarity
    rw [hcode, hla, hlb]
    norm_num
  · unfold specRatio
    rw [hspec, hla, hlb]
    norm_num
  · unfold similarity specRatio
    rw [hcode, hspec, hla, hlb]
    norm_num

/-!
Correctness of the difflib dynamic program against the specification's
longest-block scan, for inputs where the autojunk heuristic is inert
(`b.length < 200`).
-/

namespace Ratcliff

theorem runLenAux_congr (a b : Str) (ahi bhi : Nat) :
    ∀ f₁ f₂ i j, ahi - i ≤ f₁ → ahi - i ≤ f₂ →
      runLenAux a b ahi bhi f₁ i j = runLenAux a b ahi bhi f₂ i j := by
  intro f₁
  induction f₁ with
  | zero =>
    intro f₂ i j h₁ h₂
    cases f₂ with
    | zero => rfl
    | succ f₂ =>
      simp only [runLenAux]
      rw [if_neg]
      rintro ⟨hlt, -, -⟩
      omega
  | succ f₁ ih =>
    intro f₂ i j h₁ h₂
    cases f₂ with
    | zero =>
      simp only [runLenAux]
      rw [if_neg]
      rintro ⟨hlt, -, -⟩
      omega
    | succ f₂ =>
      simp only [runLenAux]
      by_cases hc : i < ahi ∧ j < bhi ∧ a.getD i ' ' = b.getD j ' '
      · rw [if_pos hc, if_pos hc, ih f₂ (i+1) (j+1) (by omega) (by omega)]
      · rw [if_neg hc, if_neg hc]

theorem runLen_unfold (a b : Str) (ahi bhi i j : Nat) :
    runLen a b ahi bhi i j
      = if i < ahi ∧ j < bhi ∧ a.getD i ' ' = b.getD j ' ' then
          runLen a b ahi bhi (i + 1) (j + 1) + 1
        else 0 := by
  unfold runLen
  by_cases h : i < ahi
  · rw [show ahi - i = (ahi - (i + 1)) + 1 by omega]
    rfl
  · rw [show ahi - i = 0 by omega]
    show (0 : Nat) = _
    rw [if_neg]
    rintro ⟨hlt, -, -⟩
    exact h hlt

theorem runLenAux_le_fuel (a b : Str) (ahi bhi : Nat) :
    ∀ f i j, runLenAux a b ahi bhi f i j ≤ f := by
  intro f
  induction f with
  | zero => intro i j; exact Nat.le_refl 0
  | succ f ih =>
    intro i j
    show (if _ then runLenAux a b ahi bhi f (i+1) (j+1) + 1 else 0) ≤ f + 1
    split
    · exact Nat.succ_le_succ (ih (i+1) (j+1))
    · exact Nat.zero_le _

theorem runLenAux_le_right (a b : Str) (ahi bhi : Nat) :
    ∀ f i j, runLenAux a b ahi bhi f i j ≤ bhi - j := by
  intro f
  induction f with
  | zero => intro i j; exact Nat.zero_le _
  | succ f ih =>
    intro i j
    simp only [runLenAux]
    split
    · rename_i hc
      obtain ⟨-, h2, -⟩ := hc
      have := ih (i+1) (j+1)
      omega
    · exact Nat.zero_le _

theorem runLen_le_left (a b : Str) (ahi bhi i j : Nat) :
    runLen a b ahi bhi i j ≤ ahi - i :=
  runLenAux_le_fuel a b ahi bhi (ahi - i) i j

theorem runLen_le_right (a b : Str) (ahi bhi i j : Nat) :
    runLen a b ahi bhi i j ≤ bhi - j :=
  runLenAux_le_right a b ahi bhi (ahi - i) i j

theorem runLen_chars (a b : Str) (ahi bhi : Nat) :
    ∀ k i j, runLen a b ahi bhi i j = k →
      ∀ t, t < k → i + t < ahi ∧ j + t < bhi ∧ a.getD (i + t) ' ' = b.getD (j + t) ' ' := by
  intro k
  induction k with
  | zero => intro i j _ t ht; omega
  | succ k ih =>
    intro i j hk t ht
    rw [runLen_unfold] at hk
    by_cases hc : i < ahi ∧ j < bhi ∧ a.getD i ' ' = b.getD j ' '
    · rw [if_pos hc] at hk
      cases t with
      | zero => simpa using hc
      | succ t =>
        have := ih (i+1) (j+1) (by omega) t (by omega)
        constructor
        · omega
        constructor
        · omega
        · have h3 := this.2.2
          rw [show i + 1 + t = i + (t + 1) by omega, show j + 1 + t = j + (t + 1) by omega] at h3
          exact h3
    · rw [if_neg hc] at hk
      omega

theorem runLen_build (a b : Str) (ahi bhi : Nat) :
    ∀ k i j,
      (∀ t, t < k → i + t < ahi ∧ j + t < bhi ∧ a.getD (i + t) ' ' = b.getD (j + t) ' ') →
      k ≤ runLen a b ahi bhi i j := by
  intro k
  induction k with
  | zero => intro i j _; exact Nat.zero_le _
  | succ k ih =>
    intro i j hch
    have h0 := hch 0 (by omega)
    simp only [Nat.add_zero] at h0
    rw [runLen_unfold, if_pos h0]
    have := ih (i+1) (j+1) (fun t ht => by
      have h := hch (t+1) (by omega)
      refine ⟨by omega, by omega, ?_⟩
      have h3 := h.2.2
      rw [show i + (t + 1) = i + 1 + t by omega, show j + (t + 1) = j + 1 + t by omega] at h3
      exact h3)
    omega

theorem runLen_max_stop (a b : Str) (ahi bhi i j : Nat) :
    ¬(i + runLen a b ahi bhi i j < ahi ∧ j + runLen a b ahi bhi i j < bhi
      ∧ a.getD (i + runLen a b ahi bhi i j) ' ' = b.getD (j + runLen a b ahi bhi i j) ' ') := by
  rintro ⟨h1, h2, h3⟩
  have hb := runLen_build a b ahi bhi (runLen a b ahi bhi i j + 1) i j (fun t ht => by
    by_cases hlt : t < runLen a b ahi bhi i j
    · exact runLen_chars a b ahi bhi _ i j rfl t hlt
    · have ht' : t = runLen a b ahi bhi i j := by omega
      subst ht'
      exact ⟨h1, h2, h3⟩)
  omega

theorem endLen_pos_eq (a b : Str) (alo ahi blo bhi i j : Nat)
    (h : alo ≤ i ∧ blo ≤ j ∧ i < ahi ∧ j < bhi ∧ a.getD i ' ' = b.getD j ' ') :
    endLen a b alo ahi blo bhi i j
      = (if alo < i ∧ blo < j then endLen a b alo ahi blo bhi (i - 1) (j - 1) else 0) + 1 := by
  cases i with
  | zero =>
    simp only [endLen]
    rw [if_pos h, if_neg (by rintro ⟨h1, -⟩; omega)]
  | succ i =>
    simp only [endLen]
    rw [if_pos h]
    by_cases hc : alo ≤ i ∧ blo < j
    · rw [if_pos hc, if_pos (show alo < i + 1 ∧ blo < j by omega),
          show i + 1 - 1 = i from rfl]
    · rw [if_neg hc, if_neg (show ¬(alo < i + 1 ∧ blo < j) by omega)]

theorem endLen_zero (a b : Str) (alo ahi blo bhi i j : Nat)
    (h : ¬(alo ≤ i ∧ blo ≤ j ∧ i < ahi ∧ j < bhi ∧ a.getD i ' ' = b.getD j ' ')) :
    endLen a b alo ahi blo bhi i j = 0 := by
  cases i with
  | zero => simp only [endLen]; rw [if_neg h]
  | succ i => simp only [endLen]; rw [if_neg h]

theorem endLen_chars (a b : Str) (alo ahi blo bhi : Nat) :
    ∀ i j k, endLen a b alo ahi blo bhi i j = k →
      ∀ t, t < k → t ≤ i ∧ t ≤ j ∧ alo ≤ i - t ∧ blo ≤ j - t ∧ i - t < ahi ∧ j - t < bhi
        ∧ a.getD (i - t) ' ' = b.getD (j - t) ' ' := by
  intro i
  induction i with
  | zero =>
    intro j k hk t ht
    simp only [endLen] at hk
    by_cases hc : alo ≤ 0 ∧ blo ≤ j ∧ 0 < ahi ∧ j < bhi ∧ a.getD 0 ' ' = b.getD j ' '
    · rw [if_pos hc] at hk
      obtain ⟨c1, c2, c3, c4, c5⟩ := hc
      have ht0 : t = 0 := by omega
      subst ht0
      refine ⟨by omega, by omega, by omega, ?_, by omega, ?_, ?_⟩
      · simpa using c2
      · simpa using c4
      · simpa using c5
    · rw [if_neg hc] at hk; omega
  | succ i ih =>
    intro j k hk t ht
    simp only [endLen] at hk
    by_cases hc : alo ≤ i + 1 ∧ blo ≤ j ∧ i + 1 < ahi ∧ j < bhi ∧ a.getD (i+1) ' ' = b.getD j ' '
    · rw [if_pos hc] at hk
      obtain ⟨c1, c2, c3, c4, c5⟩ := hc
      cases t with
      | zero =>
        refine ⟨by omega, by omega, by omega, ?_, by omega, ?_, ?_⟩
        · simpa using c2
        · simpa using c4
        · simpa using c5
      | succ t =>
        by_cases hg : alo ≤ i ∧ blo < j
        · rw [if_pos hg] at hk
          obtain ⟨d1, d2, d3, d4, d5, d6, d7⟩ :=
            ih (j-1) (endLen a b alo ahi blo bhi i (j-1)) rfl t (by omega)
          have e1 : i + 1 - (t + 1) = i - t := by omega
          have e2 : j - (t + 1) = (j - 1) - t := by omega
          refine ⟨by omega, by omega, ?_, ?_, ?_, ?_, ?_⟩
          · rw [e1]; exact d3
          · rw [e2]; exact d4
          · rw [e1]; exact d5
          · rw [e2]; exact d6
          · rw [e1, e2]; exact d7
        · rw [if_neg hg] at hk
          omega
    · rw [if_neg hc] at hk; omega

theorem endLen_build (a b : Str) (alo ahi blo bhi : Nat) :
    ∀ k s₁ s₂, alo ≤ s₁ → blo ≤ s₂ →
      (∀ t, t < k → s₁ + t < ahi ∧ s₂ + t < bhi ∧ a.getD (s₁ + t) ' ' = b.getD (s₂ + t) ' ') →
      k ≤ endLen a b alo ahi blo bhi (s₁ + k - 1) (s₂ + k - 1) := by
  intro k
  induction k with
  | zero => intro s₁ s₂ _ _ _; exact Nat.zero_le _
  | succ k ih =>
    intro s₁ s₂ h₁ h₂ hch
    have hk := hch k (by omega)
    rw [show s₁ + (k+1) - 1 = s₁ + k by omega, show s₂ + (k+1) - 1 = s₂ + k by omega,
        endLen_pos_eq a b alo ahi blo bhi (s₁+k) (s₂+k)
          ⟨by omega, by omega, hk.1, hk.2.1, hk.2.2⟩]
    by_cases hk0 : k = 0
    · subst hk0; omega
    · rw [if_pos (show alo < s₁ + k ∧ blo < s₂ + k by omega),
          show s₁ + k - 1 = s₁ + k - 1 from rfl]
      have hih := ih s₁ s₂ h₁ h₂ (fun t ht => hch t (by omega))
      omega

theorem endLen_to_runLen (a b : Str) (alo ahi blo bhi i j k : Nat)
    (hk : endLen a b alo ahi blo bhi i j = k) (hpos : 0 < k) :
    k ≤ i + 1 ∧ k ≤ j + 1 ∧ alo ≤ i + 1 - k ∧ blo ≤ j + 1 - k ∧ i < ahi ∧ j < bhi
      ∧ k ≤ runLen a b ahi bhi (i + 1 - k) (j + 1 - k) := by
  have hch := endLen_chars a b alo ahi blo bhi i j k hk
  have hk1 := hch (k-1) (by omega)
  have h0 := hch 0 (by omega)
  obtain ⟨p1, p2, p3, p4, p5, p6, p7⟩ := hk1
  obtain ⟨q1, q2, q3, q4, q5, q6, q7⟩ := h0
  refine ⟨by omega, by omega, by omega, by omega, by omega, by omega, ?_⟩
  apply runLen_build
  intro t ht
  obtain ⟨r1, r2, r3, r4, r5, r6, r7⟩ := hch (k - 1 - t) (by omega)
  have e1 : i + 1 - k + t = i - (k - 1 - t) := by omega
  have e2 : j + 1 - k + t = j - (k - 1 - t) := by omega
  refine ⟨?_, ?_, ?_⟩
  · rw [e1]; exact r5
  · rw [e2]; exact r6
  · rw [e1, e2]; exact r7

theorem scanBest_const (f : Nat → Nat → Nat) (mk : Nat → Nat → Nat → SeqMatcher.Best) :
    ∀ (l : List (Nat × Nat)) (init : SeqMatcher.Best),
      (∀ c ∈ l, f c.1 c.2 ≤ init.bestsize) →
      l.foldl (fun best c =>
        let k := f c.1 c.2
        if best.bestsize < k then mk c.1 c.2 k else best) init = init := by
  intro l
  induction l with
  | nil => intro init _; rfl
  | cons c cs ih =>
    intro init h
    rw [List.foldl_cons]
    dsimp only
    rw [if_neg (by have := h c (by simp); omega)]
    exact ih init (fun d hd => h d (by simp [hd]))

theorem scanBest_attain (f : Nat → Nat → Nat) (mk : Nat → Nat → Nat → SeqMatcher.Best)
    (hmk : ∀ i j k, (mk i j k).bestsize = k) :
    ∀ (l₁ : List (Nat × Nat)) (c : Nat × Nat) (l₂ : List (Nat × Nat))
      (init : SeqMatcher.Best) (M : Nat),
      f c.1 c.2 = M →
      (∀ d ∈ l₁, f d.1 d.2 < M) →
      (∀ d ∈ l₂, f d.1 d.2 ≤ M) →
      init.bestsize < M →
      (l₁ ++ c :: l₂).foldl (fun best d =>
        let k := f d.1 d.2
        if best.bestsize < k then mk d.1 d.2 k else best) init = mk c.1 c.2 M := by
  intro l₁
  induction l₁ with
  | nil =>
    intro c l₂ init M hc h₁ h₂ hinit
    rw [List.nil_append, List.foldl_cons]
    dsimp only
    rw [hc, if_pos hinit]
    exact scanBest_const f mk l₂ (mk c.1 c.2 M) (fun d hd => by rw [hmk]; exact h₂ d hd)
  | cons d l₁ ih =>
    intro c l₂ init M hc h₁ h₂ hinit
    rw [List.cons_append, List.foldl_cons]
    dsimp only
    by_cases hd : init.bestsize < f d.1 d.2
    · rw [if_pos hd]
      exact ih c l₂ _ M hc (fun e he => h₁ e (by simp [he])) h₂
        (by rw [hmk]; exact h₁ d (by simp))
    · rw [if_neg hd]
      exact ih c l₂ init M hc (fun e he => h₁ e (by simp [he])) h₂ hinit

theorem scanBest_result (f : Nat → Nat → Nat) (mk : Nat → Nat → Nat → SeqMatcher.Best) :
    ∀ (l : List (Nat × Nat)) (init : SeqMatcher.Best),
      l.foldl (fun best d =>
        let k := f d.1 d.2
        if best.bestsize < k then mk d.1 d.2 k else best) init = init
      ∨ ∃ c ∈ l, l.foldl (fun best d =>
          let k := f d.1 d.2
          if best.bestsize < k then mk d.1 d.2 k else best) init
            = mk c.1 c.2 (f c.1 c.2) := by
  intro l
  induction l with
  | nil => intro init; exact Or.inl rfl
  | cons d l ih =>
    intro init
    rw [List.foldl_cons]
    dsimp only
    by_cases hd : init.bestsize < f d.1 d.2
    · rw [if_pos hd]
      rcases ih (mk d.1 d.2 (f d.1 d.2)) with heq | ⟨c, hc, heq⟩
      · exact Or.inr ⟨d, by simp, heq⟩
      · exact Or.inr ⟨c, by simp [hc], heq⟩
    · rw [if_neg hd]
      rcases ih init with heq | ⟨c, hc, heq⟩
      · exact Or.inl heq
      · exact Or.inr ⟨c, by simp [hc], heq⟩

theorem foldMax_le_init (f : Nat × Nat → Nat) :
    ∀ (l : List (Nat × Nat)) (init : Nat),
      init ≤ l.foldl (fun m d => max m (f d)) init := by
  intro l
  induction l with
  | nil => intro init; exact Nat.le_refl _
  | cons d l ih =>
    intro init
    rw [List.foldl_cons]
    exact le_trans (le_max_left _ _) (ih _)

theorem foldMax_le_mem (f : Nat × Nat → Nat) :
    ∀ (l : List (Nat × Nat)) (init : Nat) (c : Nat × Nat), c ∈ l →
      f c ≤ l.foldl (fun m d => max m (f d)) init := by
  intro l
  induction l with
  | nil => intro init c hc; exact absurd hc (by simp)
  | cons d l ih =>
    intro init c hc
    rw [List.foldl_cons]
    rcases List.mem_cons.mp hc with rfl | hc'
    · exact le_trans (le_max_right _ _) (foldMax_le_init f l _)
    · exact ih _ c hc'

theorem foldMax_attain (f : Nat × Nat → Nat) :
    ∀ (l : List (Nat × Nat)) (init : Nat),
      l.foldl (fun m d => max m (f d)) init = init
      ∨ ∃ c ∈ l, l.foldl (fun m d => max m (f d)) init = f c := by
  intro l
  induction l with
  | nil => intro init; exact Or.inl rfl
  | cons d l ih =>
    intro init
    rw [List.foldl_cons]
    rcases ih (max init (f d)) with heq | ⟨c, hc, heq⟩
    · by_cases hd : init ≤ f d
      · exact Or.inr ⟨d, by simp, by rw [heq, max_eq_right hd]⟩
      · exact Or.inl (by rw [heq, max_eq_left (le_of_not_le hd)])
    · exact Or.inr ⟨c, by simp [hc], heq⟩

theorem first_attain_split (f : Nat × Nat → Nat) (K : Nat) :
    ∀ l : List (Nat × Nat), (∃ c ∈ l, f c = K) →
      ∃ l₁ c l₂, l = l₁ ++ c :: l₂ ∧ f c = K ∧ ∀ d ∈ l₁, f d ≠ K := by
  intro l
  induction l with
  | nil => rintro ⟨c, hc, -⟩; exact absurd hc (by simp)
  | cons d l ih =>
    rintro ⟨c, hc, hcK⟩
    by_cases hd : f d = K
    · exact ⟨[], d, l, by simp, hd, by simp⟩
    · rcases List.mem_cons.mp hc with rfl | hc'
      · exact absurd hcK hd
      · obtain ⟨l₁, c₀, l₂, heq, hK, hne⟩ := ih ⟨c, hc', hcK⟩
        refine ⟨d :: l₁, c₀, l₂, by rw [heq]; rfl, hK, ?_⟩
        intro e he
        rcases List.mem_cons.mp he with rfl | he'
        · exact hd
        · exact hne e he'

theorem pairwise_split {R : Nat × Nat → Nat × Nat → Prop}
    (l₁ : List (Nat × Nat)) (c : Nat × Nat) (l₂ : List (Nat × Nat))
    (h : List.Pairwise R (l₁ ++ c :: l₂)) :
    (∀ d ∈ l₁, R d c) ∧ (∀ d ∈ l₂, R c d) := by
  rw [List.pairwise_append] at h
  obtain ⟨h₁, h₂, h₃⟩ := h
  rw [List.pairwise_cons] at h₂
  exact ⟨fun d hd => h₃ d hd c (by simp), h₂.1⟩

theorem mem_range1 (s n m : Nat) : m ∈ List.range' s n ↔ s ≤ m ∧ m < s + n := by
  rw [List.mem_range']
  constructor
  · rintro ⟨i, hi, rfl⟩; omega
  · intro ⟨h1, h2⟩; exact ⟨m - s, by omega, by omega⟩

theorem range1_pairwise : ∀ (n s : Nat), List.Pairwise (· < ·) (List.range' s n) := by
  intro n
  induction n with
  | zero => intro s; simp
  | succ n ih =>
    intro s
    rw [List.range'_succ, List.pairwise_cons]
    refine ⟨fun m hm => ?_, ih (s+1)⟩
    have := (mem_range1 (s+1) n m).mp hm
    omega

theorem pairwise_lex_rows (g : Nat → List (Nat × Nat))
    (hrow : ∀ i, List.Pairwise lexLT (g i))
    (hfst : ∀ i c, c ∈ g i → c.1 = i) :
    ∀ rows : List Nat, List.Pairwise (· < ·) rows →
      List.Pairwise lexLT (rows.flatMap g) := by
  intro rows
  induction rows with
  | nil => intro _; simp
  | cons r rs ih =>
    intro h
    rw [List.pairwise_cons] at h
    rw [List.flatMap_cons, List.pairwise_append]
    refine ⟨hrow r, ih h.2, ?_⟩
    intro c hc d hd
    obtain ⟨r', hr', hd'⟩ := List.mem_flatMap.mp hd
    left
    rw [hfst r c hc, hfst r' d hd']
    exact h.1 r' hr'

theorem positionsAux_mem (c : Char) :
    ∀ (l : Str) (s j : Nat),
      j ∈ SeqMatcher.positionsAux c l s
        ↔ ∃ t, t < l.length ∧ j = s + t ∧ l.getD t ' ' = c := by
  intro l
  induction l with
  | nil => intro s j; simp [SeqMatcher.positionsAux]
  | cons x xs ih =>
    intro s j
    simp only [SeqMatcher.positionsAux]
    by_cases hx : x = c
    · rw [if_pos hx]
      constructor
      · intro hj
        rcases List.mem_cons.mp hj with rfl | hj'
        · exact ⟨0, by simp, by omega, by simpa using hx⟩
        · obtain ⟨t, ht, rfl, hc⟩ := (ih (s+1) j).mp hj'
          exact ⟨t + 1, by simpa using ht, by omega, by simpa using hc⟩
      · rintro ⟨t, ht, rfl, hc⟩
        cases t with
        | zero => simp
        | succ t =>
          apply List.mem_cons_of_mem
          apply (ih (s+1) (s + (t+1))).mpr
          exact ⟨t, by simpa using ht, by omega, by simpa using hc⟩
    · rw [if_neg hx]
      constructor
      · intro hj
        obtain ⟨t, ht, rfl, hc⟩ := (ih (s+1) j).mp hj
        exact ⟨t + 1, by simpa using ht, by omega, by simpa using hc⟩
      · rintro ⟨t, ht, rfl, hc⟩
        cases t with
        | zero =>
          exact absurd (by simpa using hc) hx
        | succ t =>
          apply (ih (s+1) (s + (t+1))).mpr
          exact ⟨t, by simpa using ht, by omega, by simpa using hc⟩

theorem positionsAux_lower (c : Char) (l : Str) (s j : Nat)
    (h : j ∈ SeqMatcher.positionsAux c l s) : s ≤ j := by
  obtain ⟨t, -, rfl, -⟩ := (positionsAux_mem c l s j).mp h
  omega

theorem positionsAux_pairwise (c : Char) :
    ∀ (l : Str) (s : Nat), List.Pairwise (· < ·) (SeqMatcher.positionsAux c l s) := by
  intro l
  induction l with
  | nil => intro s; simp [SeqMatcher.positionsAux]
  | cons x xs ih =>
    intro s
    simp only [SeqMatcher.positionsAux]
    by_cases hx : x = c
    · rw [if_pos hx, List.pairwise_cons]
      exact ⟨fun j hj => by have := positionsAux_lower c xs (s+1) j hj; omega, ih (s+1)⟩
    · rw [if_neg hx]
      exact ih (s+1)

theorem positions_mem (c : Char) (b : Str) (j : Nat) :
    j ∈ SeqMatcher.positions c b ↔ j < b.length ∧ b.getD j ' ' = c := by
  unfold SeqMatcher.positions
  rw [positionsAux_mem]
  constructor
  · rintro ⟨t, ht, rfl, hc⟩
    constructor
    · omega
    · simpa using hc
  · intro ⟨h1, h2⟩
    exact ⟨j, h1, by omega, h2⟩

theorem b2j_eq_positions (b : Str) (hb : b.length < 200) (c : Char) :
    SeqMatcher.b2j b c = SeqMatcher.positions c b := by
  have hpop : SeqMatcher.popular b c = false := by
    unfold SeqMatcher.popular
    simp [Nat.not_le.mpr hb]
  unfold SeqMatcher.b2j
  rw [hpop]
  rfl

theorem cells_mem (alo ahi blo bhi : Nat) (halo : alo ≤ ahi) (c : Nat × Nat) :
    c ∈ cells alo ahi blo bhi ↔ alo ≤ c.1 ∧ c.1 < ahi ∧ blo ≤ c.2 ∧ c.2 < bhi := by
  obtain ⟨i, j⟩ := c
  unfold cells
  rw [List.mem_flatMap]
  constructor
  · rintro ⟨i', hi', hj⟩
    rw [List.mem_map] at hj
    obtain ⟨j', hj', heq⟩ := hj
    rw [Prod.mk.injEq] at heq
    obtain ⟨rfl, rfl⟩ := heq
    have h1 := (mem_range1 _ _ _).mp hi'
    have h2 := (mem_range1 _ _ _).mp hj'
    refine ⟨by omega, by omega, by omega, by omega⟩
  · intro ⟨h1, h2, h3, h4⟩
    refine ⟨i, (mem_range1 _ _ _).mpr ⟨h1, by omega⟩, List.mem_map.mpr
      ⟨j, (mem_range1 _ _ _).mpr ⟨h3, by omega⟩, rfl⟩⟩

theorem matchCells_mem (a b : Str) (alo ahi blo bhi : Nat) (halo : alo ≤ ahi) (c : Nat × Nat) :
    c ∈ matchCells a b alo ahi blo bhi
      ↔ alo ≤ c.1 ∧ c.1 < ahi ∧ blo ≤ c.2 ∧ c.2 < bhi ∧ c.2 < b.length
        ∧ b.getD c.2 ' ' = a.getD c.1 ' ' := by
  obtain ⟨i, j⟩ := c
  unfold matchCells
  rw [List.mem_flatMap]
  constructor
  · rintro ⟨i', hi', hj⟩
    rw [List.mem_map] at hj
    obtain ⟨j', hj', heq⟩ := hj
    rw [Prod.mk.injEq] at heq
    obtain ⟨rfl, rfl⟩ := heq
    rw [List.mem_filter] at hj'
    obtain ⟨hpos, hrange⟩ := hj'
    have h1 := (mem_range1 _ _ _).mp hi'
    have h2 := (positions_mem _ _ _).mp hpos
    simp only [Bool.and_eq_true, decide_eq_true_eq] at hrange
    exact ⟨by omega, by omega, hrange.1, hrange.2, h2.1, h2.2⟩
  · intro ⟨h1, h2, h3, h4, h5, h6⟩
    refine ⟨i, (mem_range1 _ _ _).mpr ⟨h1, by omega⟩, List.mem_map.mpr
      ⟨j, List.mem_filter.mpr ⟨(positions_mem _ _ _).mpr ⟨h5, h6⟩, ?_⟩, rfl⟩⟩
    simp only [Bool.and_eq_true, decide_eq_true_eq]
    exact ⟨h3, h4⟩

theorem cells_pairwise (alo ahi blo bhi : Nat) :
    List.Pairwise lexLT (cells alo ahi blo bhi) := by
  apply pairwise_lex_rows
  · intro i
    rw [List.pairwise_map]
    exact (range1_pairwise _ _).imp (fun h => Or.inr ⟨rfl, h⟩)
  · intro i c hc
    rw [List.mem_map] at hc
    obtain ⟨j, -, heq⟩ := hc
    rw [← heq]
  · exact range1_pairwise _ _

theorem matchCells_pairwise (a b : Str) (alo ahi blo bhi : Nat) :
    List.Pairwise lexLT (matchCells a b alo ahi blo bhi) := by
  apply pairwise_lex_rows
  · intro i
    rw [List.pairwise_map]
    exact ((positionsAux_pairwise _ _ _).filter _).imp (fun h => Or.inr ⟨rfl, h⟩)
  · intro i c hc
    rw [List.mem_map] at hc
    obtain ⟨j, -, heq⟩ := hc
    rw [← heq]
  · exact range1_pairwise _ _

theorem foldl_flatMap_best {α : Type} (g : Nat → List α) (f : SeqMatcher.Best → α → SeqMatcher.Best) :
    ∀ (rows : List Nat) (init : SeqMatcher.Best),
      (rows.flatMap g).foldl f init = rows.foldl (fun acc i => (g i).foldl f acc) init := by
  intro rows
  induction rows with
  | nil => intro init; rfl
  | cons r rs ih =>
    intro init
    rw [List.flatMap_cons, List.foldl_append, List.foldl_cons, ih]

theorem bestBlock_eq_cells (a b : Str) (alo ahi blo bhi : Nat) :
    bestBlock a b alo ahi blo bhi
      = (cells alo ahi blo bhi).foldl
          (fun best c =>
            let k := runLen a b ahi bhi c.1 c.2
            if best.bestsize < k then ⟨c.1, c.2, k⟩ else best)
          ⟨alo, blo, 0⟩ := by
  unfold bestBlock cells rowScan
  rw [foldl_flatMap_best]
  congr 1
  funext acc i
  rw [List.foldl_map]

theorem innerLoop_spec (a b : Str) (alo ahi blo bhi : Nat)
    (hbhi : bhi ≤ b.length)
    (i : Nat) (hi1 : alo ≤ i) (hi2 : i < ahi)
    (old : Nat → Nat)
    (hold : ∀ j', old j' = if alo < i then endLen a b alo ahi blo bhi (i-1) j' else 0) :
    ∀ (js : List Nat) (m : Nat),
      (∀ j ∈ js, j < b.length ∧ b.getD j ' ' = a.getD i ' ') →
      List.Pairwise (· < ·) js →
      (∀ j ∈ js, m ≤ j) →
      (∀ j', m ≤ j' → j' < b.length → b.getD j' ' ' = a.getD i ' ' → j' ∈ js) →
      ∀ (new : Nat → Nat),
        (∀ j', new j' = if j' < m then endLen a b alo ahi blo bhi i j' else 0) →
      ∀ (best : SeqMatcher.Best),
        (∀ j', (SeqMatcher.innerLoop blo bhi i old js new best).1 j'
            = endLen a b alo ahi blo bhi i j')
        ∧ (SeqMatcher.innerLoop blo bhi i old js new best).2
            = ((js.filter (fun j => decide (blo ≤ j) && decide (j < bhi))).map
                (fun j => ((i : Nat), j))).foldl
                (fun best c =>
                  let k := endLen a b alo ahi blo bhi c.1 c.2
                  if best.bestsize < k then ⟨c.1 + 1 - k, c.2 + 1 - k, k⟩ else best) best := by
  intro js
  induction js with
  | nil =>
    intro m hmem hsort hlow hcomp new hnew best
    constructor
    · intro j'
      show new j' = _
      rw [hnew j']
      by_cases hj' : j' < m
      · rw [if_pos hj']
      · rw [if_neg hj']
        symm
        apply endLen_zero
        rintro ⟨-, -, -, h4, h5⟩
        exact absurd (hcomp j' (by omega) (by omega) h5.symm) (by simp)
    · rfl
  | cons j js ih =>
    intro m hmem hsort hlow hcomp new hnew best
    have hsort' := List.pairwise_cons.mp hsort
    simp only [SeqMatcher.innerLoop]
    by_cases hjblo : j < blo
    · rw [if_pos hjblo]
      have hfilter : (j :: js).filter (fun x => decide (blo ≤ x) && decide (x < bhi))
          = js.filter (fun x => decide (blo ≤ x) && decide (x < bhi)) := by
        apply List.filter_cons_of_neg
        simp only [Bool.and_eq_true, decide_eq_true_eq, not_and]
        intro h
        omega
      rw [hfilter]
      have hmj : m ≤ j := hlow j (by simp)
      exact ih (j+1) (fun x hx => hmem x (by simp [hx])) hsort'.2
        (fun x hx => by have := hsort'.1 x hx; omega)
        (fun j' h1 h2 h3 => by
          rcases List.mem_cons.mp (hcomp j' (by omega) h2 h3) with rfl | hx
          · omega
          · exact hx)
        new (fun j' => by
          rw [hnew j']
          by_cases h1 : j' < m
          · rw [if_pos h1, if_pos (by omega)]
          · rw [if_neg h1]
            by_cases h2 : j' < j + 1
            · rw [if_pos h2]
              symm
              apply endLen_zero
              rintro ⟨-, hb2, -, -, -⟩
              omega
            · rw [if_neg h2])
        best
    · rw [if_neg hjblo]
      have hjblo' : blo ≤ j := Nat.not_lt.mp hjblo
      by_cases hjbhi : bhi ≤ j
      · rw [if_pos hjbhi]
        constructor
        · intro j'
          show new j' = _
          rw [hnew j']
          by_cases h1 : j' < m
          · rw [if_pos h1]
          · rw [if_neg h1]
            symm
            apply endLen_zero
            rintro ⟨-, -, -, h4, h5⟩
            have hin := hcomp j' (by omega) (by omega) h5.symm
            rcases List.mem_cons.mp hin with rfl | hx
            · omega
            · have := hsort'.1 j' hx
              omega
        · show best = _
          have hfilter : (j :: js).filter (fun x => decide (blo ≤ x) && decide (x < bhi)) = [] := by
            rw [List.filter_eq_nil_iff]
            intro x hx
            simp only [Bool.and_eq_true, decide_eq_true_eq, not_and]
            intro _
            rcases List.mem_cons.mp hx with rfl | hx'
            · omega
            · have := hsort'.1 x hx'
              omega
          rw [hfilter]
          rfl
      · rw [if_neg hjbhi]
        have hjbhi' : j < bhi := Nat.not_le.mp hjbhi
        have hmemj := hmem j (by simp)
        have hmj : m ≤ j := hlow j (by simp)
        have hguard : alo ≤ i ∧ blo ≤ j ∧ i < ahi ∧ j < bhi ∧ a.getD i ' ' = b.getD j ' ' :=
          ⟨hi1, hjblo', hi2, hjbhi', hmemj.2.symm⟩
        have hk : (if j = 0 then 0 else old (j - 1)) + 1 = endLen a b alo ahi blo bhi i j := by
          rw [endLen_pos_eq a b alo ahi blo bhi i j hguard]
          congr 1
          by_cases h0 : j = 0
          · rw [if_pos h0, if_neg (by rintro ⟨-, h2⟩; omega)]
          · rw [if_neg h0, hold (j-1)]
            by_cases hig : alo < i ∧ blo < j
            · rw [if_pos hig, if_pos hig.1]
            · rw [if_neg hig]
              by_cases hai : alo < i
              · rw [if_pos hai]
                apply endLen_zero
                rintro ⟨-, hb2, -, -, -⟩
                omega
              · rw [if_neg hai]
        have hres := ih (j+1) (fun x hx => hmem x (by simp [hx])) hsort'.2
          (fun x hx => by have := hsort'.1 x hx; omega)
          (fun j' h1 h2 h3 => by
            rcases List.mem_cons.mp (hcomp j' (by omega) h2 h3) with rfl | hx
            · omega
            · exact hx)
          (fun j' => if j' = j then (if j = 0 then 0 else old (j - 1)) + 1 else new j')
          (fun j' => by
            show (if j' = j then (if j = 0 then 0 else old (j - 1)) + 1 else new j')
              = if j' < j + 1 then endLen a b alo ahi blo bhi i j' else 0
            by_cases hjj : j' = j
            · rw [if_pos hjj, hjj, if_pos (show j < j + 1 by omega)]
              exact hk
            · rw [if_neg hjj, hnew j']
              by_cases h1 : j' < m
              · rw [if_pos h1, if_pos (by omega)]
              · rw [if_neg h1]
                by_cases h2 : j' < j + 1
                · rw [if_pos h2]
                  symm
                  apply endLen_zero
                  rintro ⟨-, -, -, h4, h5⟩
                  have hin := hcomp j' (by omega) (by omega) h5.symm
                  rcases List.mem_cons.mp hin with rfl | hx
                  · exact hjj rfl
                  · have := hsort'.1 j' hx
                    omega
                · rw [if_neg h2])
          (if best.bestsize < (if j = 0 then 0 else old (j - 1)) + 1 then
            ⟨i + 1 - ((if j = 0 then 0 else old (j - 1)) + 1),
             j + 1 - ((if j = 0 then 0 else old (j - 1)) + 1),
             (if j = 0 then 0 else old (j - 1)) + 1⟩ else best)
        have hfilter : (j :: js).filter (fun x => decide (blo ≤ x) && decide (x < bhi))
            = j :: js.filter (fun x => decide (blo ≤ x) && decide (x < bhi)) := by
          apply List.filter_cons_of_pos
          simp only [Bool.and_eq_true, decide_eq_true_eq]
          exact ⟨hjblo', hjbhi'⟩
        rw [hfilter, List.map_cons, List.foldl_cons]
        constructor
        · exact hres.1
        · rw [hres.2]
          dsimp only
          rw [← hk]
  -- end of innerLoop_spec

theorem coreRows_spec (a b : Str) (alo ahi blo bhi : Nat)
    (hbhi : bhi ≤ b.length) (hb : b.length < 200) :
    ∀ (cnt i : Nat), alo ≤ i → i + cnt ≤ ahi →
      ∀ (old : Nat → Nat),
        (∀ j', old j' = if alo < i then endLen a b alo ahi blo bhi (i-1) j' else 0) →
      ∀ (best : SeqMatcher.Best),
        ((List.range' i cnt).foldl
          (fun st i' => SeqMatcher.innerLoop blo bhi i' st.1
            (SeqMatcher.b2j b (a.getD i' ' ')) (fun _ => 0) st.2)
          (old, best)).2
        = ((List.range' i cnt).flatMap (fun i' =>
            ((SeqMatcher.positions (a.getD i' ' ') b).filter
              (fun j => decide (blo ≤ j) && decide (j < bhi))).map
              (fun j => ((i' : Nat), j)))).foldl
            (fun best c =>
              let k := endLen a b alo ahi blo bhi c.1 c.2
              if best.bestsize < k then ⟨c.1 + 1 - k, c.2 + 1 - k, k⟩ else best) best := by
  intro cnt
  induction cnt with
  | zero => intro i _ _ old _ best; rfl
  | succ cnt ih =>
    intro i hi1 hi2 old hold best
    rw [List.range'_succ, List.foldl_cons, List.flatMap_cons, List.foldl_append]
    have hstep := innerLoop_spec a b alo ahi blo bhi hbhi i hi1 (by omega) old hold
      (SeqMatcher.b2j b (a.getD i ' ')) 0
      (fun j hj => by
        rw [b2j_eq_positions b hb] at hj
        exact (positions_mem _ _ _).mp hj)
      (by rw [b2j_eq_positions b hb]; exact positionsAux_pairwise _ _ _)
      (fun j _ => Nat.zero_le j)
      (fun j' _ h2 h3 => by rw [b2j_eq_positions b hb]; exact (positions_mem _ _ _).mpr ⟨h2, h3⟩)
      (fun _ => 0) (fun j' => by rw [if_neg (by omega)])
      best
    have hstep2 : (SeqMatcher.innerLoop blo bhi i old
          (SeqMatcher.b2j b (a.getD i ' ')) (fun _ => 0) best).2
        = (((SeqMatcher.positions (a.getD i ' ') b).filter
            (fun j => decide (blo ≤ j) && decide (j < bhi))).map
            (fun j => ((i : Nat), j))).foldl
          (fun best c =>
            let k := endLen a b alo ahi blo bhi c.1 c.2
            if best.bestsize < k then ⟨c.1 + 1 - k, c.2 + 1 - k, k⟩ else best) best := by
      rw [hstep.2, b2j_eq_positions b hb]
    have hfinal := ih (i+1) (by omega) (by omega)
      (SeqMatcher.innerLoop blo bhi i old (SeqMatcher.b2j b (a.getD i ' ')) (fun _ => 0) best).1
      (fun j' => by
        rw [hstep.1 j', if_pos (show alo < i + 1 by omega), Nat.add_sub_cancel])
      ((((SeqMatcher.positions (a.getD i ' ') b).filter
          (fun j => decide (blo ≤ j) && decide (j < bhi))).map
          (fun j => ((i : Nat), j))).foldl
        (fun best c =>
          let k := endLen a b alo ahi blo bhi c.1 c.2
          if best.bestsize < k then ⟨c.1 + 1 - k, c.2 + 1 - k, k⟩ else best) best)
    conv at hfinal => lhs; rw [← hstep2]
    exact hfinal

theorem coreLoop_spec (a b : Str) (alo ahi blo bhi : Nat) (halo : alo ≤ ahi)
    (hbhi : bhi ≤ b.length) (hb : b.length < 200) :
    SeqMatcher.coreLoop a b alo ahi blo bhi
      = (matchCells a b alo ahi blo bhi).foldl
          (fun best c =>
            let k := endLen a b alo ahi blo bhi c.1 c.2
            if best.bestsize < k then ⟨c.1 + 1 - k, c.2 + 1 - k, k⟩ else best)
          ⟨alo, blo, 0⟩ := by
  unfold SeqMatcher.coreLoop matchCells
  exact coreRows_spec a b alo ahi blo bhi hbhi hb (ahi - alo) alo (le_refl alo) (by omega)
    (fun _ => 0) (fun j' => by rw [if_neg (lt_irrefl alo)]) ⟨alo, blo, 0⟩

theorem extendBack_noop (a b : Str) (alo blo : Nat) :
    ∀ (bi bj bs : Nat),
      ¬(alo < bi ∧ blo < bj ∧ a.getD (bi - 1) ' ' = b.getD (bj - 1) ' ') →
      SeqMatcher.extendBack a b alo blo bi bj bs = ⟨bi, bj, bs⟩ := by
  intro bi bj bs h
  cases bi with
  | zero => rfl
  | succ n =>
    simp only [SeqMatcher.extendBack]
    rw [if_neg (by rintro ⟨h1, h2, h3⟩; exact h ⟨h1, h2, h3⟩)]

theorem extendFwd_noop (a b : Str) (ahi bhi bi bj : Nat) (fuel bs : Nat)
    (h : ¬(bi + bs < ahi ∧ bj + bs < bhi ∧ a.getD (bi + bs) ' ' = b.getD (bj + bs) ' ')) :
    SeqMatcher.extendFwdAux a b ahi bhi bi bj (fuel + 1) bs = bs := by
  simp only [SeqMatcher.extendFwdAux]
  rw [if_neg h]

theorem flm_eq_bestBlock (a b : Str) (alo ahi blo bhi : Nat)
    (halo : alo ≤ ahi) (hbhi : bhi ≤ b.length) (hb : b.length < 200) :
    SeqMatcher.find_longest_match a b alo ahi blo bhi = bestBlock a b alo ahi blo bhi := by
  obtain ⟨M, hM⟩ : ∃ M, (cells alo ahi blo bhi).foldl
      (fun m d => max m (runLen a b ahi bhi d.1 d.2)) 0 = M := ⟨_, rfl⟩
  have hub : ∀ c ∈ cells alo ahi blo bhi, runLen a b ahi bhi c.1 c.2 ≤ M := by
    intro c hc
    have h := foldMax_le_mem (fun d => runLen a b ahi bhi d.1 d.2)
      (cells alo ahi blo bhi) 0 c hc
    rw [hM] at h
    exact h
  rcases Nat.eq_zero_or_pos M with hM0 | hM1
  · -- no matching character anywhere in the region
    subst hM0
    have hbb : bestBlock a b alo ahi blo bhi = ⟨alo, blo, 0⟩ := by
      rw [bestBlock_eq_cells]
      exact scanBest_const (fun i j => runLen a b ahi bhi i j)
        (fun i j k => (⟨i, j, k⟩ : SeqMatcher.Best)) (cells alo ahi blo bhi)
        ⟨alo, blo, 0⟩ (fun c hc => hub c hc)
    have hmc : matchCells a b alo ahi blo bhi = [] := by
      cases hmce : matchCells a b alo ahi blo bhi with
      | nil => rfl
      | cons d ds =>
        exfalso
        have hd : d ∈ matchCells a b alo ahi blo bhi := by rw [hmce]; simp
        obtain ⟨q1, q2, q3, q4, q5, q6⟩ :=
          (matchCells_mem a b alo ahi blo bhi halo d).mp hd
        have hrun : 1 ≤ runLen a b ahi bhi d.1 d.2 := by
          rw [runLen_unfold, if_pos ⟨q2, q4, q6.symm⟩]
          exact Nat.le_add_left 1 _
        have hle := hub d ((cells_mem alo ahi blo bhi halo d).mpr ⟨q1, q2, q3, q4⟩)
        omega
    have hcore : SeqMatcher.coreLoop a b alo ahi blo bhi = ⟨alo, blo, 0⟩ := by
      rw [coreLoop_spec a b alo ahi blo bhi halo hbhi hb, hmc]
      rfl
    have hback : SeqMatcher.extendBack a b alo blo alo blo 0 = ⟨alo, blo, 0⟩ :=
      extendBack_noop a b alo blo alo blo 0 (fun h => absurd h.1 (lt_irrefl alo))
    have hfwd : SeqMatcher.extendFwdAux a b ahi bhi alo blo (ahi + 1) 0 = 0 := by
      apply extendFwd_noop
      rintro ⟨w1, w2, w3⟩
      simp only [Nat.add_zero] at w1 w2 w3
      have hle : runLen a b ahi bhi alo blo ≤ 0 :=
        hub (alo, blo) ((cells_mem alo ahi blo bhi halo (alo, blo)).mpr
          ⟨le_refl _, w1, le_refl _, w2⟩)
      have hrun : 1 ≤ runLen a b ahi bhi alo blo := by
        rw [runLen_unfold, if_pos ⟨w1, w2, w3⟩]
        exact Nat.le_add_left 1 _
      omega
    simp only [SeqMatcher.find_longest_match, hcore, hback, hfwd, hbb]
  · -- a matching block of positive size M exists
    have hattain : ∃ c ∈ cells alo ahi blo bhi, runLen a b ahi bhi c.1 c.2 = M := by
      rcases foldMax_attain (fun d => runLen a b ahi bhi d.1 d.2)
          (cells alo ahi blo bhi) 0 with h0 | ⟨c, hc, hMc⟩
      · rw [hM] at h0; omega
      · rw [hM] at hMc; exact ⟨c, hc, hMc.symm⟩
    obtain ⟨l₁, c₀, l₂, hsplit, hc₀M, hl₁ne⟩ :=
      first_attain_split (fun d => runLen a b ahi bhi d.1 d.2) M
        (cells alo ahi blo bhi) hattain
    have hc₀mem : c₀ ∈ cells alo ahi blo bhi := by rw [hsplit]; simp
    obtain ⟨b1, b2, b3, b4⟩ := (cells_mem alo ahi blo bhi halo c₀).mp hc₀mem
    have hl₁lt : ∀ d ∈ l₁, runLen a b ahi bhi d.1 d.2 < M := by
      intro d hd
      have hmem : d ∈ cells alo ahi blo bhi := by rw [hsplit]; simp [hd]
      exact lt_of_le_of_ne (hub d hmem) (hl₁ne d hd)
    have hl₂le : ∀ d ∈ l₂, runLen a b ahi bhi d.1 d.2 ≤ M := by
      intro d hd
      exact hub d (by rw [hsplit]; simp [hd])
    have hbb : bestBlock a b alo ahi blo bhi = ⟨c₀.1, c₀.2, M⟩ := by
      rw [bestBlock_eq_cells, hsplit]
      exact scanBest_attain (fun i j => runLen a b ahi bhi i j)
        (fun i j k => (⟨i, j, k⟩ : SeqMatcher.Best)) (fun i j k => rfl)
        l₁ c₀ l₂ ⟨alo, blo, 0⟩ M hc₀M hl₁lt hl₂le hM1
    -- the chain lengths over the match cells are also bounded by M
    have hendle : ∀ d ∈ matchCells a b alo ahi blo bhi,
        endLen a b alo ahi blo bhi d.1 d.2 ≤ M := by
      intro d hd
      rcases Nat.eq_zero_or_pos (endLen a b alo ahi blo bhi d.1 d.2) with h0 | hpos
      · omega
      · obtain ⟨p1, p2, p3, p4, p5, p6, p7⟩ :=
          endLen_to_runLen a b alo ahi blo bhi d.1 d.2 _ rfl hpos
        have hrle : runLen a b ahi bhi
            (d.1 + 1 - endLen a b alo ahi blo bhi d.1 d.2)
            (d.2 + 1 - endLen a b alo ahi blo bhi d.1 d.2) ≤ M :=
          hub ((d.1 + 1 - endLen a b alo ahi blo bhi d.1 d.2,
                d.2 + 1 - endLen a b alo ahi blo bhi d.1 d.2))
            ((cells_mem alo ahi blo bhi halo _).mpr ⟨p3, by omega, p4, by omega⟩)
        omega
    -- the end cell of the first best run attains chain length M
    have hrunc₀ : runLen a b ahi bhi c₀.1 c₀.2 = M := hc₀M
    have hchars := runLen_chars a b ahi bhi _ c₀.1 c₀.2 rfl
    rw [hrunc₀] at hchars
    have hstar : endLen a b alo ahi blo bhi (c₀.1 + M - 1) (c₀.2 + M - 1) = M := by
      have hge := endLen_build a b alo ahi blo bhi M c₀.1 c₀.2 b1 b3 hchars
      have hmemstar : ((c₀.1 + M - 1, c₀.2 + M - 1) : Nat × Nat)
          ∈ matchCells a b alo ahi blo bhi := by
        obtain ⟨r1, r2, r3⟩ := hchars (M - 1) (by omega)
        apply (matchCells_mem a b alo ahi blo bhi halo _).mpr
        refine ⟨by omega, by omega, by omega, by omega, by omega, ?_⟩
        rw [show c₀.2 + M - 1 = c₀.2 + (M - 1) by omega,
            show c₀.1 + M - 1 = c₀.1 + (M - 1) by omega]
        exact r3.symm
      have hle : endLen a b alo ahi blo bhi (c₀.1 + M - 1) (c₀.2 + M - 1) ≤ M :=
        hendle _ hmemstar
      omega
    have hmemstar : ((c₀.1 + M - 1, c₀.2 + M - 1) : Nat × Nat)
        ∈ matchCells a b alo ahi blo bhi := by
      obtain ⟨r1, r2, r3⟩ := hchars (M - 1) (by omega)
      apply (matchCells_mem a b alo ahi blo bhi halo _).mpr
      refine ⟨by omega, by omega, by omega, by omega, by omega, ?_⟩
      rw [show c₀.2 + M - 1 = c₀.2 + (M - 1) by omega,
          show c₀.1 + M - 1 = c₀.1 + (M - 1) by omega]
      exact r3.symm
    obtain ⟨m₁, e₁, m₂, hmsplit, he₁M, hm₁ne⟩ :=
      first_attain_split (fun d => endLen a b alo ahi blo bhi d.1 d.2) M
        (matchCells a b alo ahi blo bhi) ⟨_, hmemstar, hstar⟩
    have hm₁lt : ∀ d ∈ m₁, endLen a b alo ahi blo bhi d.1 d.2 < M := by
      intro d hd
      have hmem : d ∈ matchCells a b alo ahi blo bhi := by rw [hmsplit]; simp [hd]
      exact lt_of_le_of_ne (hendle d hmem) (hm₁ne d hd)
    have hm₂le : ∀ d ∈ m₂, endLen a b alo ahi blo bhi d.1 d.2 ≤ M := by
      intro d hd
      exact hendle d (by rw [hmsplit]; simp [hd])
    have hcore : SeqMatcher.coreLoop a b alo ahi blo bhi
        = ⟨e₁.1 + 1 - M, e₁.2 + 1 - M, M⟩ := by
      rw [coreLoop_spec a b alo ahi blo bhi halo hbhi hb, hmsplit]
      exact scanBest_attain (fun i j => endLen a b alo ahi blo bhi i j)
        (fun i j k => (⟨i + 1 - k, j + 1 - k, k⟩ : SeqMatcher.Best)) (fun i j k => rfl)
        m₁ e₁ m₂ ⟨alo, blo, 0⟩ M he₁M hm₁lt hm₂le hM1
    -- the start of the winning chain is the first best run start
    obtain ⟨p1, p2, p3, p4, p5, p6, p7⟩ :=
      endLen_to_runLen a b alo ahi blo bhi e₁.1 e₁.2 M he₁M hM1
    have hs₁mem : ((e₁.1 + 1 - M, e₁.2 + 1 - M) : Nat × Nat) ∈ cells alo ahi blo bhi :=
      (cells_mem alo ahi blo bhi halo _).mpr ⟨p3, by omega, p4, by omega⟩
    have hs₁run : runLen a b ahi bhi (e₁.1 + 1 - M) (e₁.2 + 1 - M) = M :=
      le_antisymm (hub _ hs₁mem) p7
    have hs₁eq : ((e₁.1 + 1 - M, e₁.2 + 1 - M) : Nat × Nat) = c₀ := by
      by_contra hne
      rw [hsplit] at hs₁mem
      rcases List.mem_append.mp hs₁mem with hin₁ | hin₂
      · exact absurd hs₁run (hl₁ne _ hin₁)
      · rcases List.mem_cons.mp hin₂ with heq | hin₂'
        · exact hne heq
        · -- the start lies strictly after c₀ in row-major order
          have hlex₁ : lexLT c₀ (e₁.1 + 1 - M, e₁.2 + 1 - M) :=
            (pairwise_split l₁ c₀ l₂ (hsplit ▸ cells_pairwise alo ahi blo bhi)).2 _ hin₂'
          rw [hmsplit] at hmemstar
          rcases List.mem_append.mp hmemstar with hin₁' | hin₂''
          · exact absurd hstar (hm₁ne _ hin₁')
          · rcases List.mem_cons.mp hin₂'' with heq' | hin₂'''
            · -- the end cells coincide, so the starts do too
              apply hne
              have h1 : c₀.1 + M - 1 = e₁.1 := congrArg Prod.fst heq'
              have h2 : c₀.2 + M - 1 = e₁.2 := congrArg Prod.snd heq'
              have : (e₁.1 + 1 - M, e₁.2 + 1 - M) = (c₀.1, c₀.2) := by
                rw [← h1, ← h2]
                congr 1 <;> omega
              rw [this]
            · have hlex₂ : lexLT e₁ (c₀.1 + M - 1, c₀.2 + M - 1) :=
                (pairwise_split m₁ e₁ m₂
                  (hmsplit ▸ matchCells_pairwise a b alo ahi blo bhi)).2 _ hin₂'''
              unfold lexLT at hlex₁ hlex₂
              simp only at hlex₁ hlex₂
              omega
    have hcore' : SeqMatcher.coreLoop a b alo ahi blo bhi = ⟨c₀.1, c₀.2, M⟩ := by
      rw [hcore]
      have h1 : e₁.1 + 1 - M = c₀.1 := congrArg Prod.fst hs₁eq
      have h2 : e₁.2 + 1 - M = c₀.2 := congrArg Prod.snd hs₁eq
      rw [h1, h2]
    -- neither extension loop can move: the run is maximal
    have hback : SeqMatcher.extendBack a b alo blo c₀.1 c₀.2 M = ⟨c₀.1, c₀.2, M⟩ := by
      apply extendBack_noop
      rintro ⟨w1, w2, w3⟩
      have hrun' : runLen a b ahi bhi (c₀.1 - 1) (c₀.2 - 1) = M + 1 := by
        rw [runLen_unfold, if_pos ⟨by omega, by omega, w3⟩,
            show c₀.1 - 1 + 1 = c₀.1 by omega, show c₀.2 - 1 + 1 = c₀.2 by omega, hrunc₀]
      have hle : runLen a b ahi bhi (c₀.1 - 1) (c₀.2 - 1) ≤ M :=
        hub (c₀.1 - 1, c₀.2 - 1) ((cells_mem alo ahi blo bhi halo _).mpr
          ⟨by omega, by omega, by omega, by omega⟩)
      omega
    have hfwd : SeqMatcher.extendFwdAux a b ahi bhi c₀.1 c₀.2 (ahi + 1) M = M := by
      apply extendFwd_noop
      have := runLen_max_stop a b ahi bhi c₀.1 c₀.2
      rw [hrunc₀] at this
      exact this
    simp only [SeqMatcher.find_longest_match, hcore', hback, hfwd, hbb]

theorem specMatchedFuel_succ (a b : Str) (fuel alo ahi blo bhi : Nat) :
    matchedFuel a b (fuel + 1) alo ahi blo bhi
      = (if (bestBlock a b alo ahi blo bhi).bestsize = 0 then 0
        else
          (bestBlock a b alo ahi blo bhi).bestsize
          + (if alo < (bestBlock a b alo ahi blo bhi).besti
                ∧ blo < (bestBlock a b alo ahi blo bhi).bestj then
              matchedFuel a b fuel alo (bestBlock a b alo ahi blo bhi).besti
                blo (bestBlock a b alo ahi blo bhi).bestj
            else 0)
          + (if (bestBlock a b alo ahi blo bhi).besti
                  + (bestBlock a b alo ahi blo bhi).bestsize < ahi
                ∧ (bestBlock a b alo ahi blo bhi).bestj
                  + (bestBlock a b alo ahi blo bhi).bestsize < bhi then
              matchedFuel a b fuel
                ((bestBlock a b alo ahi blo bhi).besti
                  + (bestBlock a b alo ahi blo bhi).bestsize) ahi
                ((bestBlock a b alo ahi blo bhi).bestj
                  + (bestBlock a b alo ahi blo bhi).bestsize) bhi
            else 0)) := rfl

theorem codeMatchedFuel_succ (a b : Str) (fuel alo ahi blo bhi : Nat) :
    SeqMatcher.matchedFuel a b (fuel + 1) alo ahi blo bhi
      = (if (SeqMatcher.find_longest_match a b alo ahi blo bhi).bestsize = 0 then 0
        else
          (SeqMatcher.find_longest_match a b alo ahi blo bhi).bestsize
          + (if alo < (SeqMatcher.find_longest_match a b alo ahi blo bhi).besti
                ∧ blo < (SeqMatcher.find_longest_match a b alo ahi blo bhi).bestj then
              SeqMatcher.matchedFuel a b fuel alo
                (SeqMatcher.find_longest_match a b alo ahi blo bhi).besti
                blo (SeqMatcher.find_longest_match a b alo ahi blo bhi).bestj
            else 0)
          + (if (SeqMatcher.find_longest_match a b alo ahi blo bhi).besti
                  + (SeqMatcher.find_longest_match a b alo ahi blo bhi).bestsize < ahi
                ∧ (SeqMatcher.find_longest_match a b alo ahi blo bhi).bestj
                  + (SeqMatcher.find_longest_match a b alo ahi blo bhi).bestsize < bhi then
              SeqMatcher.matchedFuel a b fuel
                ((SeqMatcher.find_longest_match a b alo ahi blo bhi).besti
                  + (SeqMatcher.find_longest_match a b alo ahi blo bhi).bestsize) ahi
                ((SeqMatcher.find_longest_match a b alo ahi blo bhi).bestj
                  + (SeqMatcher.find_longest_match a b alo ahi blo bhi).bestsize) bhi
            else 0)) := rfl

theorem bestBlock_cases (a b : Str) (alo ahi blo bhi : Nat) :
    bestBlock a b alo ahi blo bhi = ⟨alo, blo, 0⟩
    ∨ ∃ c ∈ cells alo ahi blo bhi,
        bestBlock a b alo ahi blo bhi = ⟨c.1, c.2, runLen a b ahi bhi c.1 c.2⟩ := by
  rw [bestBlock_eq_cells]
  rcases scanBest_result (fun i j => runLen a b ahi bhi i j)
      (fun i j k => (⟨i, j, k⟩ : SeqMatcher.Best)) (cells alo ahi blo bhi) ⟨alo, blo, 0⟩
    with h | ⟨c, hc, h⟩
  · exact Or.inl h
  · exact Or.inr ⟨c, hc, h⟩

theorem matchedFuel_le (a b : Str) :
    ∀ fuel alo ahi blo bhi,
      matchedFuel a b fuel alo ahi blo bhi ≤ ahi - alo
      ∧ matchedFuel a b fuel alo ahi blo bhi ≤ bhi - blo := by
  intro fuel
  induction fuel with
  | zero => intro alo ahi blo bhi; exact ⟨Nat.zero_le _, Nat.zero_le _⟩
  | succ fuel ih =>
    intro alo ahi blo bhi
    rw [specMatchedFuel_succ]
    by_cases h0 : (bestBlock a b alo ahi blo bhi).bestsize = 0
    · rw [if_pos h0]; exact ⟨Nat.zero_le _, Nat.zero_le _⟩
    · rw [if_neg h0]
      rcases bestBlock_cases a b alo ahi blo bhi with hbbc | ⟨c, hc, hbbc⟩
      · rw [hbbc] at h0; exact absurd rfl h0
      · have halo : alo ≤ ahi := by
          by_contra hcon
          have hnil : cells alo ahi blo bhi = [] := by
            unfold cells
            rw [show ahi - alo = 0 by omega]
            rfl
          rw [hnil] at hc
          exact absurd hc (List.not_mem_nil c)
        obtain ⟨k1, k2, k3, k4⟩ := (cells_mem alo ahi blo bhi halo c).mp hc
        simp only [hbbc]
        have hKa := runLen_le_left a b ahi bhi c.1 c.2
        have hKb := runLen_le_right a b ahi bhi c.1 c.2
        have hL1 : (if alo < c.1 ∧ blo < c.2 then
              matchedFuel a b fuel alo c.1 blo c.2 else 0) ≤ c.1 - alo := by
          split
          · exact (ih alo c.1 blo c.2).1
          · exact Nat.zero_le _
        have hL2 : (if alo < c.1 ∧ blo < c.2 then
              matchedFuel a b fuel alo c.1 blo c.2 else 0) ≤ c.2 - blo := by
          split
          · exact (ih alo c.1 blo c.2).2
          · exact Nat.zero_le _
        have hR1 : (if c.1 + runLen a b ahi bhi c.1 c.2 < ahi
                ∧ c.2 + runLen a b ahi bhi c.1 c.2 < bhi then
              matchedFuel a b fuel (c.1 + runLen a b ahi bhi c.1 c.2) ahi
                (c.2 + runLen a b ahi bhi c.1 c.2) bhi else 0)
            ≤ ahi - (c.1 + runLen a b ahi bhi c.1 c.2) := by
          split
          · exact (ih _ _ _ _).1
          · exact Nat.zero_le _
        have hR2 : (if c.1 + runLen a b ahi bhi c.1 c.2 < ahi
                ∧ c.2 + runLen a b ahi bhi c.1 c.2 < bhi then
              matchedFuel a b fuel (c.1 + runLen a b ahi bhi c.1 c.2) ahi
                (c.2 + runLen a b ahi bhi c.1 c.2) bhi else 0)
            ≤ bhi - (c.2 + runLen a b ahi bhi c.1 c.2) := by
          split
          · exact (ih _ _ _ _).2
          · exact Nat.zero_le _
        exact ⟨by omega, by omega⟩

theorem matchedFuel_eq (a b : Str) (hb : b.length < 200) :
    ∀ fuel alo ahi blo bhi, alo ≤ ahi → bhi ≤ b.length →
      SeqMatcher.matchedFuel a b fuel alo ahi blo bhi
        = matchedFuel a b fuel alo ahi blo bhi := by
  intro fuel
  induction fuel with
  | zero => intro alo ahi blo bhi _ _; rfl
  | succ fuel ih =>
    intro alo ahi blo bhi halo hbhi
    rw [codeMatchedFuel_succ, specMatchedFuel_succ,
        flm_eq_bestBlock a b alo ahi blo bhi halo hbhi hb]
    by_cases h0 : (bestBlock a b alo ahi blo bhi).bestsize = 0
    · rw [if_pos h0, if_pos h0]
    · rw [if_neg h0, if_neg h0]
      rcases bestBlock_cases a b alo ahi blo bhi with hbbc | ⟨c, hc, hbbc⟩
      · rw [hbbc] at h0; exact absurd rfl h0
      · obtain ⟨k1, k2, k3, k4⟩ := (cells_mem alo ahi blo bhi halo c).mp hc
        simp only [hbbc]
        congr 1
        · congr 1
          by_cases hL : alo < c.1 ∧ blo < c.2
          · rw [if_pos hL, if_pos hL]
            exact ih alo c.1 blo c.2 (le_of_lt hL.1) (by omega)
          · rw [if_neg hL, if_neg hL]
        · by_cases hR : c.1 + runLen a b ahi bhi c.1 c.2 < ahi
              ∧ c.2 + runLen a b ahi bhi c.1 c.2 < bhi
          · rw [if_pos hR, if_pos hR]
            exact ih _ _ _ _ (le_of_lt hR.1) hbhi
          · rw [if_neg hR, if_neg hR]

theorem matchesTotal_eq (a b : Str) (hb : b.length < 200) :
    SeqMatcher.matchesTotal a b = matchedTotal a b :=
  matchedFuel_eq a b hb (a.length + b.length + 1) 0 a.length 0 b.length
    (Nat.zero_le _) (le_refl _)

theorem matched_cover (a b : Str) :
    ∀ fuel alo ahi blo bhi,
      matchedFuel a b fuel alo ahi blo bhi = ahi - alo
      ∧ matchedFuel a b fuel alo ahi blo bhi = bhi - blo →
      ∀ t, t < ahi - alo → a.getD (alo + t) ' ' = b.getD (blo + t) ' ' := by
  intro fuel
  induction fuel with
  | zero =>
    intro alo ahi blo bhi h t ht
    exfalso
    have h0 : matchedFuel a b 0 alo ahi blo bhi = 0 := rfl
    omega
  | succ fuel ih =>
    intro alo ahi blo bhi h t ht
    obtain ⟨hA, hB⟩ := h
    rw [specMatchedFuel_succ] at hA hB
    by_cases h0 : (bestBlock a b alo ahi blo bhi).bestsize = 0
    · rw [if_pos h0] at hA
      omega
    · rw [if_neg h0] at hA hB
      rcases bestBlock_cases a b alo ahi blo bhi with hbbc | ⟨c, hc, hbbc⟩
      · rw [hbbc] at h0; exact absurd rfl h0
      · obtain ⟨k1, k2, k3, k4⟩ := (cells_mem alo ahi blo bhi (by omega) c).mp hc
        simp only [hbbc] at hA hB
        have hKa := runLen_le_left a b ahi bhi c.1 c.2
        have hKb := runLen_le_right a b ahi bhi c.1 c.2
        have hL1 : (if alo < c.1 ∧ blo < c.2 then
              matchedFuel a b fuel alo c.1 blo c.2 else 0) ≤ c.1 - alo := by
          split
          · exact (matchedFuel_le a b fuel alo c.1 blo c.2).1
          · exact Nat.zero_le _
        have hL2 : (if alo < c.1 ∧ blo < c.2 then
              matchedFuel a b fuel alo c.1 blo c.2 else 0) ≤ c.2 - blo := by
          split
          · exact (matchedFuel_le a b fuel alo c.1 blo c.2).2
          · exact Nat.zero_le _
        have hR1 : (if c.1 + runLen a b ahi bhi c.1 c.2 < ahi
                ∧ c.2 + runLen a b ahi bhi c.1 c.2 < bhi then
              matchedFuel a b fuel (c.1 + runLen a b ahi bhi c.1 c.2) ahi
                (c.2 + runLen a b ahi bhi c.1 c.2) bhi else 0)
            ≤ ahi - (c.1 + runLen a b ahi bhi c.1 c.2) := by
          split
          · exact (matchedFuel_le a b fuel _ _ _ _).1
          · exact Nat.zero_le _
        have hR2 : (if c.1 + runLen a b ahi bhi c.1 c.2 < ahi
                ∧ c.2 + runLen a b ahi bhi c.1 c.2 < bhi then
              matchedFuel a b fuel (c.1 + runLen a b ahi bhi c.1 c.2) ahi
                (c.2 + runLen a b ahi bhi c.1 c.2) bhi else 0)
            ≤ bhi - (c.2 + runLen a b ahi bhi c.1 c.2) := by
          split
          · exact (matchedFuel_le a b fuel _ _ _ _).2
          · exact Nat.zero_le _
        have hLcov : (if alo < c.1 ∧ blo < c.2 then
              matchedFuel a b fuel alo c.1 blo c.2 else 0) = c.1 - alo →
            (if alo < c.1 ∧ blo < c.2 then
              matchedFuel a b fuel alo c.1 blo c.2 else 0) = c.2 - blo →
            ∀ s, s < c.1 - alo → a.getD (alo + s) ' ' = b.getD (blo + s) ' ' := by
          split
          · intro e1 e2
            exact ih alo c.1 blo c.2 ⟨e1, e2⟩
          · intro e1 e2 s hs
            exfalso
            omega
        have hRcov : (if c.1 + runLen a b ahi bhi c.1 c.2 < ahi
                ∧ c.2 + runLen a b ahi bhi c.1 c.2 < bhi then
              matchedFuel a b fuel (c.1 + runLen a b ahi bhi c.1 c.2) ahi
                (c.2 + runLen a b ahi bhi c.1 c.2) bhi else 0)
              = ahi - (c.1 + runLen a b ahi bhi c.1 c.2) →
            (if c.1 + runLen a b ahi bhi c.1 c.2 < ahi
                ∧ c.2 + runLen a b ahi bhi c.1 c.2 < bhi then
              matchedFuel a b fuel (c.1 + runLen a b ahi bhi c.1 c.2) ahi
                (c.2 + runLen a b ahi bhi c.1 c.2) bhi else 0)
              = bhi - (c.2 + runLen a b ahi bhi c.1 c.2) →
            ∀ s, s < ahi - (c.1 + runLen a b ahi bhi c.1 c.2) →
              a.getD (c.1 + runLen a b ahi bhi c.1 c.2 + s) ' '
                = b.getD (c.2 + runLen a b ahi bhi c.1 c.2 + s) ' ' := by
          split
          · intro e1 e2
            exact ih _ _ _ _ ⟨e1, e2⟩
          · intro e1 e2 s hs
            exfalso
            omega
        have hLeq1 : (if alo < c.1 ∧ blo < c.2 then
            matchedFuel a b fuel alo c.1 blo c.2 else 0) = c.1 - alo := by omega
        have hLeq2 : (if alo < c.1 ∧ blo < c.2 then
            matchedFuel a b fuel alo c.1 blo c.2 else 0) = c.2 - blo := by omega
        have hReq1 : (if c.1 + runLen a b ahi bhi c.1 c.2 < ahi
                ∧ c.2 + runLen a b ahi bhi c.1 c.2 < bhi then
              matchedFuel a b fuel (c.1 + runLen a b ahi bhi c.1 c.2) ahi
                (c.2 + runLen a b ahi bhi c.1 c.2) bhi else 0)
            = ahi - (c.1 + runLen a b ahi bhi c.1 c.2) := by omega
        have hReq2 : (if c.1 + runLen a b ahi bhi c.1 c.2 < ahi
                ∧ c.2 + runLen a b ahi bhi c.1 c.2 < bhi then
              matchedFuel a b fuel (c.1 + runLen a b ahi bhi c.1 c.2) ahi
                (c.2 + runLen a b ahi bhi c.1 c.2) bhi else 0)
            = bhi - (c.2 + runLen a b ahi bhi c.1 c.2) := by omega
        rcases Nat.lt_or_ge t (c.1 - alo) with h1 | h1
        · exact hLcov hLeq1 hLeq2 t h1
        · rcases Nat.lt_or_ge t (c.1 - alo + runLen a b ahi bhi c.1 c.2) with h2 | h2
          · have hch := runLen_chars a b ahi bhi _ c.1 c.2 rfl
              (t - (c.1 - alo)) (by omega)
            have e1 : alo + t = c.1 + (t - (c.1 - alo)) := by omega
            have e2 : blo + t = c.2 + (t - (c.1 - alo)) := by omega
            rw [e1, e2]
            exact hch.2.2
          · have hcv := hRcov hReq1 hReq2
              (t - (c.1 - alo) - runLen a b ahi bhi c.1 c.2) (by omega)
            have e1 : alo + t = c.1 + runLen a b ahi bhi c.1 c.2
                + (t - (c.1 - alo) - runLen a b ahi bhi c.1 c.2) := by omega
            have e2 : blo + t = c.2 + runLen a b ahi bhi c.1 c.2
                + (t - (c.1 - alo) - runLen a b ahi bhi c.1 c.2) := by omega
            rw [e1, e2]
            exact hcv

theorem matchedTotal_self (a : Str) : matchedTotal a a = a.length := by
  rcases Nat.eq_zero_or_pos a.length with h0 | hpos
  · rw [List.length_eq_zero.mp h0]
    rfl
  · have hrun00 : runLen a a a.length a.length 0 0 = a.length := by
      apply le_antisymm
      · have := runLen_le_left a a a.length a.length 0 0
        omega
      · apply runLen_build
        intro t ht
        exact ⟨by omega, by omega, rfl⟩
    obtain ⟨l₂, hcells⟩ : ∃ l₂,
        cells 0 a.length 0 a.length = ((0 : Nat), (0 : Nat)) :: l₂ := by
      unfold cells
      obtain ⟨k, hk⟩ := Nat.exists_eq_add_of_lt hpos
      rw [Nat.sub_zero]
      rw [show a.length = k + 1 by omega]
      rw [List.range'_succ, List.flatMap_cons, List.map_cons, List.cons_append]
      exact ⟨_, rfl⟩
    have hbb' : bestBlock a a 0 a.length 0 a.length = ⟨0, 0, a.length⟩ := by
      rw [bestBlock_eq_cells, hcells]
      have := scanBest_attain (fun i j => runLen a a a.length a.length i j)
        (fun i j k => (⟨i, j, k⟩ : SeqMatcher.Best)) (fun i j k => rfl)
        [] ((0 : Nat), (0 : Nat)) l₂ ⟨0, 0, 0⟩ a.length hrun00
        (fun d hd => absurd hd (List.not_mem_nil d))
        (fun d hd => by
          show runLen a a a.length a.length d.1 d.2 ≤ a.length
          have := runLen_le_left a a a.length a.length d.1 d.2
          omega)
        hpos
      exact this
    show matchedFuel a a (a.length + a.length + 1) 0 a.length 0 a.length = a.length
    rw [specMatchedFuel_succ]
    simp only [hbb']
    rw [if_neg (by omega), if_neg (by omega), if_neg (by omega)]
    omega

end Ratcliff

theorem similarity_eq_specRatio (a b : Str) (hb : b.length < 200) :
    similarity a b = specRatio a b := by
  unfold similarity specRatio
  rw [Ratcliff.matchesTotal_eq a b hb]

theorem similarity_nonneg (a b : Str) : 0 ≤ similarity a b := by
  unfold similarity
  split
  · exact zero_le_one
  · apply div_nonneg
    · positivity
    · positivity

theorem similarity_le_one (a b : Str) (hb : b.length < 200) : similarity a b ≤ 1 := by
  rw [similarity_eq_specRatio a b hb]
  unfold specRatio
  split
  · exact le_refl 1
  · rename_i hne
    have hpos : (0 : ℚ) < (a.length : ℚ) + (b.length : ℚ) := by
      have h : 0 < a.length + b.length := Nat.pos_of_ne_zero hne
      exact_mod_cast h
    rw [div_le_one hpos]
    have h1 := (Ratcliff.matchedFuel_le a b (a.length + b.length + 1) 0 a.length 0 b.length).1
    have h2 := (Ratcliff.matchedFuel_le a b (a.length + b.length + 1) 0 a.length 0 b.length).2
    have hdef : Ratcliff.matchedTotal a b
        = Ratcliff.matchedFuel a b (a.length + b.length + 1) 0 a.length 0 b.length := rfl
    have h3 : 2 * Ratcliff.matchedTotal a b ≤ a.length + b.length := by omega
    exact_mod_cast h3

theorem similarity_one_iff (a b : Str) (hb : b.length < 200) :
    similarity a b = 1 ↔ a = b := by
  constructor
  · intro h1
    rcases Nat.eq_zero_or_pos (a.length + b.length) with h0 | hpos
    · have ha : a = [] := List.length_eq_zero.mp (by omega)
      have hbe : b = [] := List.length_eq_zero.mp (by omega)
      rw [ha, hbe]
    · rw [similarity_eq_specRatio a b hb] at h1
      unfold specRatio at h1
      rw [if_neg (by omega)] at h1
      have hden : ((a.length : ℚ) + (b.length : ℚ)) ≠ 0 := by
        have h : (0 : ℚ) < (a.length : ℚ) + (b.length : ℚ) := by exact_mod_cast hpos
        exact ne_of_gt h
      rw [div_eq_one_iff_eq hden] at h1
      have h2 : 2 * Ratcliff.matchedTotal a b = a.length + b.length := by exact_mod_cast h1
      have hle1 := (Ratcliff.matchedFuel_le a b
        (a.length + b.length + 1) 0 a.length 0 b.length).1
      have hle2 := (Ratcliff.matchedFuel_le a b
        (a.length + b.length + 1) 0 a.length 0 b.length).2
      have hdef : Ratcliff.matchedTotal a b
          = Ratcliff.matchedFuel a b (a.length + b.length + 1) 0 a.length 0 b.length := rfl
      have hcov := Ratcliff.matched_cover a b (a.length + b.length + 1) 0 a.length 0 b.length
        ⟨by omega, by omega⟩
      have hlen : a.length = b.length := by omega
      apply List.ext_getElem hlen
      intro i hia hib
      have hchar := hcov i (by omega)
      simp only [Nat.zero_add] at hchar
      rw [List.getD_eq_getElem?_getD, List.getD_eq_getElem?_getD,
          List.getElem?_eq_getElem hia, List.getElem?_eq_getElem hib] at hchar
      simpa using hchar
  · rintro rfl
    rw [similarity_eq_specRatio a a hb]
    unfold specRatio
    rcases Nat.eq_zero_or_pos a.length with h0 | hpos
    · rw [if_pos (by omega)]
    · rw [if_neg (by omega), Ratcliff.matchedTotal_self]
      have hden : (0 : ℚ) < (a.length : ℚ) + (a.length : ℚ) := by
        have h : 0 < a.length + a.length := by omega
        exact_mod_cast h
      rw [div_eq_one_iff_eq (ne_of_gt hden)]
      ring

/-- C2 (amended): for every pair of strings with `len(b) < 200` (so that
difflib's autojunk heuristic is inert), `similarity a b` equals the
Ratcliff/Obershelp longest-matching-blocks ratio
`2 * matched / (len a + len b)` — longest common contiguous block
(first such block in row-major start order), recursion on the left and
right remainders, matched lengths summed — and the result lies in
`[0, 1]`, equalling `1` exactly when the two strings are identical. -/
theorem c2_similarity_amended (a b : Str) (hb : b.length < 200) :
    similarity a b = specRatio a b
    ∧ 0 ≤ similarity a b ∧ similarity a b ≤ 1
    ∧ (similarity a b = 1 ↔ a = b) :=
  ⟨similarity_eq_specRatio a b hb, similarity_nonneg a b, similarity_le_one a b hb,
   similarity_one_iff a b hb⟩

theorem c2_similarity_amended_witness :
    ("incepton".toList).length < 200
    ∧ (similarity ("inception".toList) ("incepton".toList)
        = specRatio ("inception".toList) ("incepton".toList)
      ∧ 0 ≤ similarity ("inception".toList) ("incepton".toList)
      ∧ similarity ("inception".toList) ("incepton".toList) ≤ 1
      ∧ (similarity ("inception".toList) ("incepton".toList) = 1
          ↔ ("inception".toList) = ("incepton".toList))) :=
  ⟨by decide, c2_similarity_amended ("inception".toList) ("incepton".toList) (by decide)⟩
